import Mathlib

/-!
# A verification development for `api/mqs/ironmq.go` and `datastoreutil.go`

The IronMQ broker keeps three backend queues (one per priority tier) and an
in-memory table `msgAssoc` from task id to the message id and reservation id
of the message the task was reserved from.  `Push`, `Reserve` and `Delete`
are embedded as state-passing functions.  The remote queue service is a
parameter (`Queues β`): every call takes the service state `β` and returns the
answer together with the next service state.  Every operation also returns the
list of effects it performed, in order, so that statements about which backend
calls were issued (and in which order) can be made.
-/

namespace Mqs

/-! ## Data model -/

/-- The Go struct `assoc`: the lease handle of a reserved message. -/
structure assoc where
  msgId : String
  reservationId : String
  deriving DecidableEq, Repr

/-- The fields of `ironmq.Message` that `ironmq.go` reads or writes. -/
structure Message where
  Id : String
  Body : String
  Delay : Int
  ReservationId : String
  deriving DecidableEq, Repr

/-- The fields of `models.Task` that the broker and its specification use.
`Priority` is a pointer in Go (`*int32`), hence an `Option`. -/
structure Task where
  ID : String
  Priority : Option Int
  Delay : Int
  Payload : String
  deriving DecidableEq, Repr

/-- An error value produced by the backend client library; `Error` is the text
returned by Go's `err.Error()`. -/
structure BackendError where
  Error : String
  deriving DecidableEq, Repr

/-- The error values the broker can return to its caller. -/
inductive GoError where
  /-- an error of the backend client, returned as it is -/
  | backend (err : BackendError)
  /-- an error of `encoding/json` -/
  | json (text : String)
  /-- the value `models.ErrMQTaskNotReserved` -/
  | ErrMQTaskNotReserved
  /-- the empty-task error of `validate` -/
  | EmptyTask
  /-- the invalid-priority error of `validate` -/
  | InvalidPriority
  deriving DecidableEq, Repr

/-- The broker's own fields: the lease table and the poll wait budget. The
three queue handles live in the backend parameter. -/
structure IronMQ where
  msgAssoc : String → Option assoc
  reserveTimeout : Int

/-- The effects an operation performs, in program order. Backend calls are
recorded with their arguments and with the answer the backend gave. -/
inductive Effect where
  | PushMessage (queue : Nat) (msg : Message) (err : Option BackendError)
  | LongPoll (queue : Nat) (n timeout wait : Int) (delete : Bool)
      (messages : List Message) (err : Option BackendError)
  | DeleteMessage (queue : Nat) (msgId reservationId : String) (err : Option BackendError)
  /-- the assignment `mq.msgAssoc[key] = val` -/
  | mapStore (key : String) (val : assoc)
  /-- the statement `delete(mq.msgAssoc, key)` -/
  | mapDelete (key : String)
  deriving DecidableEq, Repr

/-- The backend client (`iron_go3/mq`), which is not part of the repository:
the three calls the broker makes on `mq.queues[i]`, and the library's
classifier `ErrQueueNotFound`. The first argument of each call is the index
`i` into `mq.queues`. -/
structure Queues (β : Type) where
  PushMessage : Nat → Message → β → (String × Option BackendError) × β
  LongPoll : Nat → Int → Int → Int → Bool → β → (List Message × Option BackendError) × β
  DeleteMessage : Nat → String → String → β → Option BackendError × β
  ErrQueueNotFound : BackendError → Bool

/-- The two `encoding/json` functions on `models.Task` used by the broker. -/
structure Codec where
  Marshal : Task → Except String String
  Unmarshal : String → Except String Task

/-- What one call of an operation yields: the Go return value, the broker and
the backend afterwards, the effects performed, and whether the call ended in
a runtime panic (nil dereference or index out of range). -/
structure Outcome (β : Type) (α : Type) where
  ret : α
  mq : IronMQ
  backend : β
  effects : List Effect
  panicked : Bool

/-! ## Helpers -/

/-- Go map assignment `m[key] = val`. -/
def mapStore (m : String → Option assoc) (key : String) (val : assoc) : String → Option assoc :=
  fun k => if k = key then some val else m k

/-- Go map removal `delete(m, key)`. -/
def mapDelete (m : String → Option assoc) (key : String) : String → Option assoc :=
  fun k => if k = key then none else m k

/-- Indexing the three-element slice `mq.queues`: `none` is an index out of range. -/
def queueIndex (p : Int) : Option Nat :=
  if 0 ≤ p ∧ p < 3 then some p.toNat else none

/-- Modelled from the spec: the helper `validate` of package `mqs` is not among
the sources. The task must be non-null and carry a priority that is a valid
tier index; a null task gives the empty-task error, a missing or out-of-range
priority the invalid-priority error. -/
def validate : Option Task → Option GoError
  | none => some GoError.EmptyTask
  | some job =>
    match job.Priority with
    | none => some GoError.InvalidPriority
    | some p => if p < 0 ∨ p > 2 then some GoError.InvalidPriority else none

/-- The function `ErrReservationTimedOut` of `ironmq.go`. -/
def ErrReservationTimedOut (err : BackendError) : Bool :=
  err.Error == "403 Forbidden: Reservation has timed out"

/-! ## Push -/

/-- The method `IronMQ.Push`. -/
def Push {β : Type} (q : Queues β) (c : Codec) (mq : IronMQ) (b : β) (job : Option Task) :
    Outcome β (Option Task × Option GoError) :=
  match validate job with
  | some err => ⟨(none, some err), mq, b, [], false⟩
  | none =>
    match job with
    | none => ⟨(none, none), mq, b, [], true⟩
    | some j =>
      match c.Marshal j with
      | .error e => ⟨(none, some (GoError.json e)), mq, b, [], false⟩
      | .ok buf =>
        match j.Priority.bind queueIndex with
        | none => ⟨(none, none), mq, b, [], true⟩
        | some i =>
          let msg : Message := ⟨"", buf, j.Delay, ""⟩
          let r := q.PushMessage i msg b
          ⟨(some j, r.1.2.map GoError.backend), mq, r.2, [Effect.PushMessage i msg r.1.2], false⟩

/-! ## Reserve -/

/-- How the polling loop of `Reserve` is left: by a `return` inside the loop
or by `break` with the messages of the last poll. -/
inductive LoopExit where
  | ret (r : Option Task × Option GoError)
  | brk (messages : List Message)
  deriving DecidableEq, Repr

/-- The test `err != nil && !ironmq.ErrQueueNotFound(err)`. -/
def pollAborts {β : Type} (q : Queues β) : Option BackendError → Bool
  | none => false
  | some e => !q.ErrQueueNotFound e

/-- The loop `for i := 2; i >= 0; i--` of `Reserve`, entered at tier `i`. -/
def pollTiers {β : Type} (q : Queues β) (timeout : Int) : Nat → β → LoopExit × β × List Effect
  | 0, b =>
    let r := q.LongPoll 0 1 timeout 0 false b
    let ev := Effect.LongPoll 0 1 timeout 0 false r.1.1 r.1.2
    if pollAborts q r.1.2 then (LoopExit.ret (none, r.1.2.map GoError.backend), r.2, [ev])
    else if r.1.1.length = 0 then (LoopExit.ret (none, none), r.2, [ev])
    else (LoopExit.brk r.1.1, r.2, [ev])
  | i + 1, b =>
    let r := q.LongPoll (i + 1) 1 timeout 0 false b
    let ev := Effect.LongPoll (i + 1) 1 timeout 0 false r.1.1 r.1.2
    if pollAborts q r.1.2 then (LoopExit.ret (none, r.1.2.map GoError.backend), r.2, [ev])
    else if r.1.1.length = 0 then
      let rest := pollTiers q timeout i r.2
      (rest.1, rest.2.1, ev :: rest.2.2)
    else (LoopExit.brk r.1.1, r.2, [ev])

/-- What `Reserve` returns for the message `message` it found: no task and no
error for an empty body, the decoding error when `json.Unmarshal` fails, and
the decoded task otherwise. -/
def decodeResult (c : Codec) (message : Message) : Option Task × Option GoError :=
  if message.Body = "" then (none, none)
  else
    match c.Unmarshal message.Body with
    | .error e => (none, some (GoError.json e))
    | .ok job => (some job, none)

/-- The statements of `Reserve` after the loop (from `message := messages[0]`
on), for the first message `message` of the last poll; `b1` and `evs` are the
backend state and the effects at the end of the loop. -/
def afterLoop {β : Type} (c : Codec) (mq : IronMQ) (b1 : β) (evs : List Effect)
    (message : Message) : Outcome β (Option Task × Option GoError) :=
  if message.Body = "" then ⟨(none, none), mq, b1, evs, false⟩
  else
    match c.Unmarshal message.Body with
    | .error e => ⟨(none, some (GoError.json e)), mq, b1, evs, false⟩
    | .ok job =>
      let a : assoc := ⟨message.Id, message.ReservationId⟩
      ⟨(some job, none), { mq with msgAssoc := mapStore mq.msgAssoc job.ID a }, b1,
        evs ++ [Effect.mapStore job.ID a], false⟩

/-- The method `IronMQ.Reserve`. -/
def Reserve {β : Type} (q : Queues β) (c : Codec) (mq : IronMQ) (b : β) :
    Outcome β (Option Task × Option GoError) :=
  let l := pollTiers q mq.reserveTimeout 2 b
  match l.1 with
  | LoopExit.ret r => ⟨r, mq, l.2.1, l.2.2, false⟩
  | LoopExit.brk messages =>
    match messages with
    | [] => ⟨(none, none), mq, l.2.1, l.2.2, true⟩
    | message :: _ => afterLoop c mq l.2.1 l.2.2 message

/-! ## Delete -/

/-- The method `IronMQ.Delete`. -/
def Delete {β : Type} (q : Queues β) (mq : IronMQ) (b : β) (job : Option Task) :
    Outcome β (Option GoError) :=
  match validate job with
  | some err => ⟨some err, mq, b, [], false⟩
  | none =>
    match job with
    | none => ⟨none, mq, b, [], true⟩
    | some j =>
      let found := mq.msgAssoc j.ID
      let mq1 : IronMQ := { mq with msgAssoc := mapDelete mq.msgAssoc j.ID }
      match found with
      | some a =>
        match j.Priority.bind queueIndex with
        | none => ⟨none, mq1, b, [Effect.mapDelete j.ID], true⟩
        | some i =>
          let r := q.DeleteMessage i a.msgId a.reservationId b
          let ev := Effect.DeleteMessage i a.msgId a.reservationId r.1
          match r.1 with
          | some e =>
            if ErrReservationTimedOut e then
              ⟨some GoError.ErrMQTaskNotReserved, mq1, r.2, [Effect.mapDelete j.ID, ev], false⟩
            else ⟨some (GoError.backend e), mq1, r.2, [Effect.mapDelete j.ID, ev], false⟩
          | none => ⟨none, mq1, r.2, [Effect.mapDelete j.ID, ev], false⟩
      | none => ⟨some GoError.ErrMQTaskNotReserved, mq1, b, [Effect.mapDelete j.ID], false⟩

/-! ## A backend with fixed answers, for concrete runs -/

/-- A backend state that answers every call from a table and never changes. -/
structure Canned where
  polls : Nat → List Message × Option BackendError
  pushErr : Option BackendError
  deleteErr : Option BackendError

/-- The text of the backend's queue-not-found error. -/
def queueNotFoundText : String := "404 Not Found: Queue not found"

/-- The client over `Canned` states. -/
def cannedQueues : Queues Canned where
  PushMessage := fun _ _ b => (("id", b.pushErr), b)
  LongPoll := fun i _ _ _ _ b => (b.polls i, b)
  DeleteMessage := fun _ _ _ b => (b.deleteErr, b)
  ErrQueueNotFound := fun e => e.Error == queueNotFoundText

/-- The body of a message that was not written by `Push`: a task of priority 7. -/
def foreignText : String := "\x7b\"id\":\"t7\",\"priority\":7\x7d"

/-- A codec for concrete runs: a task is written as its id, and a body is
read as the id of a task of priority 1 with no delay and no payload, except
that the body `"?"` does not parse and the body `foreignText` yields the task
`"t7"` of priority 7. -/
def idCodec : Codec where
  Marshal := fun t => .ok t.ID
  Unmarshal := fun s =>
    if s = "?" then .error "invalid character"
    else if s = foreignText then .ok ⟨"t7", some 7, 0, ""⟩
    else .ok ⟨s, some 1, 0, ""⟩

/-- The broker right after construction: no leases. -/
def emptyMQ (timeout : Int) : IronMQ := ⟨fun _ => none, timeout⟩

/-- A `Canned` backend from the answers of the three tiers, whose pushes and
deletes succeed. -/
def cannedPolls (p2 p1 p0 : List Message × Option BackendError) : Canned :=
  ⟨fun i => match i with
    | 0 => p0
    | 1 => p1
    | _ => p2, none, none⟩

/-- Messages visible in tiers 0, 1 and 2 at once. -/
def threeTiers : Canned :=
  cannedPolls ([⟨"m2", "t2", 0, "r2"⟩], none) ([⟨"m1", "t1", 0, "r1"⟩], none)
    ([⟨"m0", "t0", 0, "r0"⟩], none)

/-- Tier 2 holds a message whose body decodes to a task of priority 7. -/
def foreignBody : Canned :=
  cannedPolls ([⟨"m2", foreignText, 0, "r2"⟩], none) ([], none) ([], none)

/-- The queue of tier 2 does not exist yet, tier 1 holds a message. -/
def tierTwoMissing : Canned :=
  cannedPolls ([], some ⟨queueNotFoundText⟩) ([⟨"m1", "t1", 0, "r1"⟩], none) ([], none)

/-- Tier 2 is empty and the poll of tier 1 fails with a server error. -/
def tierOneDown : Canned :=
  cannedPolls ([], none) ([], some ⟨"500 Internal Server Error"⟩)
    ([⟨"m0", "t0", 0, "r0"⟩], none)

/-- No queue exists yet and tier 0 is empty. -/
def nothingQueued : Canned :=
  cannedPolls ([], some ⟨queueNotFoundText⟩) ([], some ⟨queueNotFoundText⟩) ([], none)

/-- The poll events among a list of effects. -/
def isPoll : Effect → Bool
  | Effect.LongPoll .. => true
  | _ => false

/-- The runs of the polling loop of `Reserve`, as a relation: entered at tier
`i` in backend state `b`, the loop is left with exit `x` in backend state `b1`
after the effects `evs`. One constructor per way through the loop body. -/
inductive PollRun {β : Type} (q : Queues β) (t : Int) :
    Nat → β → LoopExit → β → List Effect → Prop where
  /-- the poll failed with an error that is not queue-not-found: `return nil, err` -/
  | abort (i : Nat) (b b1 : β) (ms : List Message) (e : BackendError) :
      q.LongPoll i 1 t 0 false b = ((ms, some e), b1) → q.ErrQueueNotFound e = false →
      PollRun q t i b (LoopExit.ret (none, some (GoError.backend e))) b1
        [Effect.LongPoll i 1 t 0 false ms (some e)]
  /-- the poll delivered a message: `break` -/
  | found (i : Nat) (b b1 : β) (m : Message) (rest : List Message) (e : Option BackendError) :
      q.LongPoll i 1 t 0 false b = ((m :: rest, e), b1) → pollAborts q e = false →
      PollRun q t i b (LoopExit.brk (m :: rest)) b1
        [Effect.LongPoll i 1 t 0 false (m :: rest) e]
  /-- tier 0 delivered nothing: `return nil, nil` -/
  | exhausted (b b1 : β) (e : Option BackendError) :
      q.LongPoll 0 1 t 0 false b = (([], e), b1) → pollAborts q e = false →
      PollRun q t 0 b (LoopExit.ret (none, none)) b1 [Effect.LongPoll 0 1 t 0 false [] e]
  /-- a tier above 0 delivered nothing: `continue` with the next lower tier -/
  | next (i : Nat) (b b1 b2 : β) (e : Option BackendError) (x : LoopExit) (evs : List Effect) :
      q.LongPoll (i + 1) 1 t 0 false b = (([], e), b1) → pollAborts q e = false →
      PollRun q t i b1 x b2 evs →
      PollRun q t (i + 1) b x b2 (Effect.LongPoll (i + 1) 1 t 0 false [] e :: evs)

/-- The backend delete calls among a list of effects. -/
def isDelete : Effect → Bool
  | Effect.DeleteMessage .. => true
  | _ => false

/-! ## Construction -/

/-- The value `time.Second` of type `time.Duration`: a count of nanoseconds. -/
def Second : Int := 1000000000

/-- The end of `NewIronMQ` (from `mq := &IronMQ{...}` on), for the duration
`reserveTimeout` and the answer `createErr` of the connectivity check
`ConfigCreateQueue`: the broker has an empty lease table and the reserve
timeout `int(reserveTimeout/time.Second)`; Go's integer division truncates
towards zero. The reading of the URL before it (credentials, host, port, queue
name) only decides the settings of the backend client, which is a parameter
here. -/
def NewIronMQ (reserveTimeout : Int) (createErr : Option BackendError) :
    Option IronMQ × Option GoError :=
  let mq : IronMQ := ⟨fun _ => none, Int.tdiv reserveTimeout Second⟩
  match createErr with
  | some err => (none, some (GoError.backend err))
  | none => (some mq, none)

/-! ## An in-memory backend -/

/-- The state of an in-memory queue service: for every queue index the waiting
messages (oldest first) and the reserved ones, and a counter for message ids. -/
structure MemState where
  waiting : Nat → List Message
  reserved : Nat → List Message
  next : Nat

/-- Takes up to `n` visible messages (those whose delay is zero) from the front
of a queue: the messages taken and the messages left. -/
def takeVisible : Nat → List Message → List Message × List Message
  | 0, ms => ([], ms)
  | _ + 1, [] => ([], [])
  | n + 1, m :: ms =>
    if m.Delay ≤ 0 then ((m :: (takeVisible n ms).1), (takeVisible n ms).2)
    else ((takeVisible (n + 1) ms).1, m :: (takeVisible (n + 1) ms).2)

/-- The queue service over `MemState`: `PushMessage` appends the message under a
fresh id; `LongPoll` hands out up to `n` visible messages of the queue, each
with a reservation id, and keeps them as reserved unless `delete` is set;
`DeleteMessage` removes a reserved message given its id and reservation id.
Every queue exists, and no call fails except a delete of an unknown
reservation. -/
def memQueues : Queues MemState where
  PushMessage := fun i msg b =>
    ((toString b.next, none),
      { b with
        waiting := fun k =>
          if k = i then b.waiting k ++ [{ msg with Id := toString b.next }] else b.waiting k
        next := b.next + 1 })
  LongPoll := fun i n _ _ delete b =>
    let got := ((takeVisible n.toNat (b.waiting i)).1).map
      (fun m => { m with ReservationId := "r" ++ m.Id })
    ((got, none),
      { b with
        waiting := fun k => if k = i then (takeVisible n.toNat (b.waiting i)).2 else b.waiting k
        reserved := fun k =>
          if k = i ∧ delete = false then b.reserved k ++ got else b.reserved k })
  DeleteMessage := fun i id rid b =>
    if (b.reserved i).any (fun m => m.Id = id ∧ m.ReservationId = rid) then
      (none,
        { b with
          reserved := fun k =>
            if k = i then (b.reserved k).filter (fun m => ¬ (m.Id = id ∧ m.ReservationId = rid))
            else b.reserved k })
    else (some ⟨"404 Not Found: Message not found"⟩, b)
  ErrQueueNotFound := fun e => e.Error == queueNotFoundText

/-- The in-memory service with nothing queued. -/
def emptyMem : MemState := ⟨fun _ => [], fun _ => [], 0⟩

end Mqs

/-! # The helpers of `api/datastore/internal/datastoreutil`

A Go string is modelled as the list of its characters. Every character the
three functions look for (`/`, `%`, `:`, `*`) is a single byte that occurs in
no multi-byte character, so that indexing by character and by byte agree. -/

namespace Datastoreutil

/-- The library call `strings.Split(s, "/")`: the pieces of `s` between
its `/` characters. -/
def splitSlash : List Char → List (List Char)
  | [] => [[]]
  | c :: cs =>
    if c = '/' then [] :: splitSlash cs
    else
      match splitSlash cs with
      | [] => [[c]]
      | p :: ps => (c :: p) :: ps

/-- The function `SplitPath`. -/
def SplitPath (path : List Char) : List (List Char) × Bool :=
  let path1 := if 0 < path.length ∧ path.head? = some '/' then path.drop 1 else path
  let trailingSlash : Bool := decide (0 < path1.length ∧ path1.getLast? = some '/')
  let path2 := if trailingSlash then path1.take (path1.length - 1) else path1
  let parts := if 0 < path2.length then splitSlash path2 else []
  (parts, trailingSlash)

/-- The path with one leading `/` removed and then one trailing `/` removed. -/
def stripSlashes (path : List Char) : List Char :=
  let path1 := if path.head? = some '/' then path.drop 1 else path
  if path1.getLast? = some '/' then path1.dropLast else path1

/-- The library call `strings.Replace(l, "%", ".*?", -1)`. -/
def replacePercent : List Char → List Char
  | [] => []
  | c :: cs => if c = '%' then '.' :: '*' :: '?' :: replacePercent cs else c :: replacePercent cs

/-- The function `SqlLikeToRegExp`. -/
def SqlLikeToRegExp (l : List Char) : List Char :=
  '^' :: (replacePercent l ++ ['$'])

/-- The index of the first character of `s` that satisfies `p`, or `-1`. -/
def indexWhere (p : Char → Bool) : List Char → Int
  | [] => -1
  | c :: cs => if p c then 0 else if indexWhere p cs < 0 then -1 else indexWhere p cs + 1

/-- The library call `strings.IndexAny(route, ":*")`. -/
def IndexAny (route : List Char) : Int :=
  indexWhere (fun c => c = ':' ∨ c = '*') route

/-- The library call `strings.IndexRune(route, '/')`. -/
def IndexRune (route : List Char) : Int :=
  indexWhere (fun c => c = '/') route

/-- The loop `for i >= 0` of `StripParamNames`, at its head, with the buffer
`b` written so far; `fuel` bounds the number of iterations, and `none` means
that the bound was reached. -/
def stripLoop : Nat → Int → List Char → List Char → Option (List Char)
  | 0, _, _, _ => none
  | fuel + 1, i, route, b =>
    if i < 0 then some b
    else
      let route1 := route.drop i.toNat
      let j := IndexAny route1
      if j < 0 then some (b ++ route1)
      else
        stripLoop fuel (IndexRune (route1.drop (j.toNat + 1))) (route1.drop (j.toNat + 1))
          (b ++ route1.take (j.toNat + 1))

/-- The function `StripParamNames`, run for at most `route.length + 1`
iterations of its loop. -/
def StripParamNames (route : List Char) : Option (List Char) :=
  stripLoop (route.length + 1) 0 route []

/-- What `StripParamNames` is documented to compute, read off its comment:
outside a parameter name (`inName = false`) every character is kept, and a
`:` or `*` starts a parameter name; inside a name every character is dropped
up to the next `/`, which ends the name and is kept. -/
def stripNames : Bool → List Char → List Char
  | _, [] => []
  | false, c :: cs =>
    if c = ':' ∨ c = '*' then c :: stripNames true cs else c :: stripNames false cs
  | true, c :: cs =>
    if c = '/' then c :: stripNames false cs else stripNames true cs

/-- SQL `LIKE`: in the pattern `%` stands for any sequence of characters, `_`
for any one character, and every other character for itself. -/
def likeMatch : List Char → List Char → Bool
  | [], s => s.isEmpty
  | c :: p, s =>
    if c = '%' then s.tails.any (fun t => likeMatch p t)
    else
      match s with
      | [] => false
      | d :: s1 => (c = '_' ∨ c = d) && likeMatch p s1

/-- One item of a regular expression of the fragment below: `.` or a literal
character, possibly under a star. -/
structure RegexItem where
  anyChar : Bool
  lit : Char
  star : Bool
  deriving DecidableEq, Repr

/-- Reads the body of a regular expression of the fragment: literal characters,
`.`, and the lazy star `*?` after either. -/
def parseItems : List Char → List RegexItem
  | [] => []
  | c :: '*' :: '?' :: cs => ⟨c = '.', c, true⟩ :: parseItems cs
  | c :: cs => ⟨c = '.', c, false⟩ :: parseItems cs

/-- Whether one character matches an item: `.` matches every character but the
newline (Go's default), a literal matches itself. -/
def itemMatches (it : RegexItem) (d : Char) : Bool :=
  if it.anyChar then d ≠ '\n' else it.lit = d

/-- Whether the whole of `s` matches a sequence of items. -/
def itemsMatch : List RegexItem → List Char → Bool
  | [], s => s.isEmpty
  | it :: its, s =>
    if it.star then
      (s.tails.zip s.inits).any (fun ti => ti.2.all (itemMatches it) && itemsMatch its ti.1)
    else
      match s with
      | [] => false
      | d :: s1 => itemMatches it d && itemsMatch its s1

/-- Whether `s` matches the regular expression `re`, for the expressions
`^body$` whose body is in the fragment of `parseItems`: the anchors make the
match one of the whole string. -/
def regexMatch (re : List Char) (s : List Char) : Bool :=
  match re with
  | '^' :: body => body.getLast? = some '$' && itemsMatch (parseItems body.dropLast) s
  | _ => false

end Datastoreutil

namespace Mqs

/-! ## The polling loop -/

theorem pollAborts_eq_true {β : Type} (q : Queues β) (e : Option BackendError) :
    pollAborts q e = true ↔ ∃ e1, e = some e1 ∧ q.ErrQueueNotFound e1 = false := by
  cases e <;> simp [pollAborts]

/-- Every execution of the loop is one of the runs of `PollRun`. -/
theorem pollTiers_run {β : Type} (q : Queues β) (t : Int) (i : Nat) (b : β) :
    PollRun q t i b (pollTiers q t i b).1 (pollTiers q t i b).2.1 (pollTiers q t i b).2.2 := by
  induction i generalizing b with
  | zero =>
    rcases h : q.LongPoll 0 1 t 0 false b with ⟨⟨ms, e⟩, b1⟩
    simp only [pollTiers, h]
    by_cases ha : pollAborts q e = true
    · obtain ⟨e1, rfl, he1⟩ := (pollAborts_eq_true q e).1 ha
      simpa [ha] using PollRun.abort 0 b b1 ms e1 h he1
    · rcases ms with _ | ⟨m, rest⟩
      · simpa [ha] using PollRun.exhausted b b1 e h (by simpa using ha)
      · simpa [ha] using PollRun.found 0 b b1 m rest e h (by simpa using ha)
  | succ i ih =>
    rcases h : q.LongPoll (i + 1) 1 t 0 false b with ⟨⟨ms, e⟩, b1⟩
    simp only [pollTiers, h]
    by_cases ha : pollAborts q e = true
    · obtain ⟨e1, rfl, he1⟩ := (pollAborts_eq_true q e).1 ha
      simpa [ha] using PollRun.abort (i + 1) b b1 ms e1 h he1
    · rcases ms with _ | ⟨m, rest⟩
      · simpa [ha] using PollRun.next i b b1 _ e _ _ h (by simpa using ha) (ih b1)
      · simpa [ha] using PollRun.found (i + 1) b b1 m rest e h (by simpa using ha)

/-- A loop run never breaks with an empty list of messages. -/
theorem PollRun.brk_ne_nil {β : Type} {q : Queues β} {t : Int} {i : Nat} {b b1 : β}
    {x : LoopExit} {evs : List Effect} (h : PollRun q t i b x b1 evs) :
    x ≠ LoopExit.brk [] := by
  induction h with
  | abort => simp
  | found => simp
  | exhausted => simp
  | next _ _ _ _ _ _ _ _ _ _ ih => exact ih

/-- Every run of `Reserve` is a loop run followed, after a `break`, by the statements after
the loop. -/
theorem Reserve_run {β : Type} (q : Queues β) (c : Codec) (mq : IronMQ) (b : β) :
    ∃ x b1 evs, PollRun q mq.reserveTimeout 2 b x b1 evs ∧
      ((∃ r, x = LoopExit.ret r ∧ Reserve q c mq b = ⟨r, mq, b1, evs, false⟩) ∨
       (∃ m rest, x = LoopExit.brk (m :: rest) ∧ Reserve q c mq b = afterLoop c mq b1 evs m)) := by
  have h := pollTiers_run q mq.reserveTimeout 2 b
  refine ⟨_, _, _, h, ?_⟩
  have hne := h.brk_ne_nil
  unfold Reserve
  rcases hx : (pollTiers q mq.reserveTimeout 2 b).1 with r | ms
  · exact Or.inl ⟨r, rfl, by simp [hx]⟩
  · rcases ms with _ | ⟨m, rest⟩
    · exact absurd hx hne
    · exact Or.inr ⟨m, rest, rfl, by simp [hx]⟩

theorem afterLoop_ret {β : Type} (c : Codec) (mq : IronMQ) (b1 : β) (evs : List Effect)
    (m : Message) :
    (afterLoop c mq b1 evs m).ret = decodeResult c m := by
  unfold afterLoop decodeResult
  by_cases hb : m.Body = ""
  · simp [hb]
  · cases hu : c.Unmarshal m.Body <;> simp [hb]

theorem afterLoop_effects {β : Type} (c : Codec) (mq : IronMQ) (b1 : β) (evs : List Effect)
    (m : Message) :
    (afterLoop c mq b1 evs m).effects =
      evs ++ (if m.Body = "" then []
        else match c.Unmarshal m.Body with
          | .ok job => [Effect.mapStore job.ID ⟨m.Id, m.ReservationId⟩]
          | .error _ => []) := by
  unfold afterLoop
  by_cases hb : m.Body = ""
  · simp [hb]
  · cases hu : c.Unmarshal m.Body <;> simp [hb]

theorem afterLoop_polls {β : Type} (c : Codec) (mq : IronMQ) (b1 : β) (evs : List Effect)
    (m : Message) :
    (afterLoop c mq b1 evs m).effects.filter isPoll = evs.filter isPoll := by
  rw [afterLoop_effects]
  by_cases hb : m.Body = ""
  · simp [hb]
  · cases hu : c.Unmarshal m.Body <;> simp [hb, isPoll]

theorem mem_afterLoop_poll {β : Type} (c : Codec) (mq : IronMQ) (b1 : β) (evs : List Effect)
    (m : Message) (i : Nat) (n t w : Int) (d : Bool) (ms : List Message)
    (e : Option BackendError) :
    Effect.LongPoll i n t w d ms e ∈ (afterLoop c mq b1 evs m).effects ↔
      Effect.LongPoll i n t w d ms e ∈ evs := by
  rw [afterLoop_effects]
  by_cases hb : m.Body = ""
  · simp [hb]
  · cases hu : c.Unmarshal m.Body <;> simp [hb]

/-- The three ways through the statements after the loop. -/
theorem afterLoop_cases {β : Type} (c : Codec) (mq : IronMQ) (b1 : β) (evs : List Effect)
    (m : Message) :
    (m.Body = "" ∧ decodeResult c m = (none, none) ∧
        afterLoop c mq b1 evs m = ⟨(none, none), mq, b1, evs, false⟩) ∨
      (∃ e, m.Body ≠ "" ∧ c.Unmarshal m.Body = .error e ∧
        decodeResult c m = (none, some (GoError.json e)) ∧
        afterLoop c mq b1 evs m = ⟨(none, some (GoError.json e)), mq, b1, evs, false⟩) ∨
      (∃ job, m.Body ≠ "" ∧ c.Unmarshal m.Body = .ok job ∧
        decodeResult c m = (some job, none) ∧
        afterLoop c mq b1 evs m =
          ⟨(some job, none),
            { mq with msgAssoc := mapStore mq.msgAssoc job.ID ⟨m.Id, m.ReservationId⟩ }, b1,
            evs ++ [Effect.mapStore job.ID ⟨m.Id, m.ReservationId⟩], false⟩) := by
  unfold afterLoop decodeResult
  by_cases hb : m.Body = ""
  · simp [hb]
  · cases hu : c.Unmarshal m.Body <;> simp [hb]

/-- The seven ways through `Reserve`, by the tier at which the loop is left
and how: with a backend error, with a message, or (at tier 0) with nothing. -/
theorem Reserve_cases {β : Type} (q : Queues β) (c : Codec) (mq : IronMQ) (b : β) :
    (∃ ms e b2, q.LongPoll 2 1 mq.reserveTimeout 0 false b = ((ms, some e), b2) ∧
        q.ErrQueueNotFound e = false ∧
        Reserve q c mq b = ⟨(none, some (GoError.backend e)), mq, b2,
          [Effect.LongPoll 2 1 mq.reserveTimeout 0 false ms (some e)], false⟩) ∨
    (∃ m rest e b2, q.LongPoll 2 1 mq.reserveTimeout 0 false b = ((m :: rest, e), b2) ∧
        pollAborts q e = false ∧
        Reserve q c mq b = afterLoop c mq b2
          [Effect.LongPoll 2 1 mq.reserveTimeout 0 false (m :: rest) e] m) ∨
    (∃ e2 b2 ms e b1, q.LongPoll 2 1 mq.reserveTimeout 0 false b = (([], e2), b2) ∧
        pollAborts q e2 = false ∧
        q.LongPoll 1 1 mq.reserveTimeout 0 false b2 = ((ms, some e), b1) ∧
        q.ErrQueueNotFound e = false ∧
        Reserve q c mq b = ⟨(none, some (GoError.backend e)), mq, b1,
          [Effect.LongPoll 2 1 mq.reserveTimeout 0 false [] e2,
           Effect.LongPoll 1 1 mq.reserveTimeout 0 false ms (some e)], false⟩) ∨
    (∃ e2 b2 m rest e b1, q.LongPoll 2 1 mq.reserveTimeout 0 false b = (([], e2), b2) ∧
        pollAborts q e2 = false ∧
        q.LongPoll 1 1 mq.reserveTimeout 0 false b2 = ((m :: rest, e), b1) ∧
        pollAborts q e = false ∧
        Reserve q c mq b = afterLoop c mq b1
          [Effect.LongPoll 2 1 mq.reserveTimeout 0 false [] e2,
           Effect.LongPoll 1 1 mq.reserveTimeout 0 false (m :: rest) e] m) ∨
    (∃ e2 b2 e1 b1 ms e b0, q.LongPoll 2 1 mq.reserveTimeout 0 false b = (([], e2), b2) ∧
        pollAborts q e2 = false ∧
        q.LongPoll 1 1 mq.reserveTimeout 0 false b2 = (([], e1), b1) ∧
        pollAborts q e1 = false ∧
        q.LongPoll 0 1 mq.reserveTimeout 0 false b1 = ((ms, some e), b0) ∧
        q.ErrQueueNotFound e = false ∧
        Reserve q c mq b = ⟨(none, some (GoError.backend e)), mq, b0,
          [Effect.LongPoll 2 1 mq.reserveTimeout 0 false [] e2,
           Effect.LongPoll 1 1 mq.reserveTimeout 0 false [] e1,
           Effect.LongPoll 0 1 mq.reserveTimeout 0 false ms (some e)], false⟩) ∨
    (∃ e2 b2 e1 b1 m rest e b0, q.LongPoll 2 1 mq.reserveTimeout 0 false b = (([], e2), b2) ∧
        pollAborts q e2 = false ∧
        q.LongPoll 1 1 mq.reserveTimeout 0 false b2 = (([], e1), b1) ∧
        pollAborts q e1 = false ∧
        q.LongPoll 0 1 mq.reserveTimeout 0 false b1 = ((m :: rest, e), b0) ∧
        pollAborts q e = false ∧
        Reserve q c mq b = afterLoop c mq b0
          [Effect.LongPoll 2 1 mq.reserveTimeout 0 false [] e2,
           Effect.LongPoll 1 1 mq.reserveTimeout 0 false [] e1,
           Effect.LongPoll 0 1 mq.reserveTimeout 0 false (m :: rest) e] m) ∨
    (∃ e2 b2 e1 b1 e0 b0, q.LongPoll 2 1 mq.reserveTimeout 0 false b = (([], e2), b2) ∧
        pollAborts q e2 = false ∧
        q.LongPoll 1 1 mq.reserveTimeout 0 false b2 = (([], e1), b1) ∧
        pollAborts q e1 = false ∧
        q.LongPoll 0 1 mq.reserveTimeout 0 false b1 = (([], e0), b0) ∧
        pollAborts q e0 = false ∧
        Reserve q c mq b = ⟨(none, none), mq, b0,
          [Effect.LongPoll 2 1 mq.reserveTimeout 0 false [] e2,
           Effect.LongPoll 1 1 mq.reserveTimeout 0 false [] e1,
           Effect.LongPoll 0 1 mq.reserveTimeout 0 false [] e0], false⟩) := by
  obtain ⟨x, bz, evs, hrun, hR⟩ := Reserve_run q c mq b
  cases hrun with
  | abort _ _ _ ms e h2 hq =>
    obtain ⟨r, hx, hR⟩ | ⟨m', rest', hx, hR⟩ := hR
    · cases hx
      exact Or.inl ⟨ms, e, bz, h2, hq, hR⟩
    · cases hx
  | found _ _ _ m rest e h2 ha =>
    obtain ⟨r, hx, hR⟩ | ⟨m', rest', hx, hR⟩ := hR
    · cases hx
    · cases hx
      exact Or.inr (Or.inl ⟨m, rest, e, bz, h2, ha, hR⟩)
  | next _ _ b2 _ e2 _ evs1 h2 ha2 hrun1 =>
    cases hrun1 with
    | abort _ _ _ ms e h1 hq =>
      obtain ⟨r, hx, hR⟩ | ⟨m', rest', hx, hR⟩ := hR
      · cases hx
        exact Or.inr (Or.inr (Or.inl ⟨e2, b2, ms, e, bz, h2, ha2, h1, hq, hR⟩))
      · cases hx
    | found _ _ _ m rest e h1 ha =>
      obtain ⟨r, hx, hR⟩ | ⟨m', rest', hx, hR⟩ := hR
      · cases hx
      · cases hx
        exact Or.inr (Or.inr (Or.inr (Or.inl ⟨e2, b2, m, rest, e, bz, h2, ha2, h1, ha, hR⟩)))
    | next _ _ b1 _ e1 _ evs0 h1 ha1 hrun0 =>
      cases hrun0 with
      | abort _ _ _ ms e h0 hq =>
        obtain ⟨r, hx, hR⟩ | ⟨m', rest', hx, hR⟩ := hR
        · cases hx
          exact Or.inr (Or.inr (Or.inr (Or.inr (Or.inl
            ⟨e2, b2, e1, b1, ms, e, bz, h2, ha2, h1, ha1, h0, hq, hR⟩))))
        · cases hx
      | found _ _ _ m rest e h0 ha =>
        obtain ⟨r, hx, hR⟩ | ⟨m', rest', hx, hR⟩ := hR
        · cases hx
        · cases hx
          exact Or.inr (Or.inr (Or.inr (Or.inr (Or.inr (Or.inl
            ⟨e2, b2, e1, b1, m, rest, e, bz, h2, ha2, h1, ha1, h0, ha, hR⟩)))))
      | exhausted _ _ e0 h0 ha0 =>
        obtain ⟨r, hx, hR⟩ | ⟨m', rest', hx, hR⟩ := hR
        · cases hx
          exact Or.inr (Or.inr (Or.inr (Or.inr (Or.inr (Or.inr
            ⟨e2, b2, e1, b1, e0, bz, h2, ha2, h1, ha1, h0, ha0, hR⟩)))))
        · cases hx

/-! ## Validation, Push and Delete -/

/-- A task passes `validate` exactly when its priority is set and is a tier index. -/
theorem validate_eq_none (j : Task) :
    validate (some j) = none ↔ ∃ i : Nat, j.Priority = some (i : Int) ∧ i ≤ 2 := by
  obtain ⟨id, pr, dl, pl⟩ := j
  unfold validate
  rcases pr with _ | p
  · simp
  · simp only [Option.some.injEq]
    constructor
    · intro h
      have hp2 : ¬ (p < 0 ∨ p > 2) := by
        intro hc
        simp [hc] at h
      refine ⟨p.toNat, ?_, ?_⟩ <;> omega
    · rintro ⟨i, rfl, hi⟩
      have : ¬ ((i : Int) < 0 ∨ (i : Int) > 2) := by omega
      exact if_neg this

theorem queueIndex_natCast (i : Nat) (hi : i ≤ 2) : queueIndex (i : Int) = some i := by
  unfold queueIndex
  have : (0 : Int) ≤ (i : Int) ∧ (i : Int) < 3 := by omega
  simp [this]

/-- The outcome of `Delete` for a valid task that has a lease. -/
theorem Delete_of_lease {β : Type} (q : Queues β) (mq : IronMQ) (b : β) (j : Task) (a : assoc)
    (i : Nat) (hp : j.Priority = some (i : Int)) (hi : i ≤ 2)
    (hlease : mq.msgAssoc j.ID = some a) :
    Delete q mq b (some j) =
      ⟨match (q.DeleteMessage i a.msgId a.reservationId b).1 with
        | some e =>
          if ErrReservationTimedOut e then some GoError.ErrMQTaskNotReserved
          else some (GoError.backend e)
        | none => none,
        { mq with msgAssoc := mapDelete mq.msgAssoc j.ID },
        (q.DeleteMessage i a.msgId a.reservationId b).2,
        [Effect.mapDelete j.ID,
         Effect.DeleteMessage i a.msgId a.reservationId
           (q.DeleteMessage i a.msgId a.reservationId b).1], false⟩ := by
  have hv : validate (some j) = none := (validate_eq_none j).2 ⟨i, hp, hi⟩
  unfold Delete
  simp only [hv, hlease, hp, Option.bind, queueIndex_natCast i hi]
  rcases (q.DeleteMessage i a.msgId a.reservationId b).1 with _ | e
  · rfl
  · by_cases ht : ErrReservationTimedOut e = true <;> simp [ht]

/-- The outcome of `Delete` for a valid task that has no lease. -/
theorem Delete_of_no_lease {β : Type} (q : Queues β) (mq : IronMQ) (b : β) (j : Task)
    (hv : validate (some j) = none) (hno : mq.msgAssoc j.ID = none) :
    Delete q mq b (some j) =
      ⟨some GoError.ErrMQTaskNotReserved, { mq with msgAssoc := mapDelete mq.msgAssoc j.ID }, b,
        [Effect.mapDelete j.ID], false⟩ := by
  unfold Delete
  simp only [hv, hno]

/-- Removing a key that has no entry leaves a map as it was. -/
theorem mapDelete_absent (m : String → Option assoc) (key : String) (h : m key = none) :
    mapDelete m key = m := by
  funext k
  unfold mapDelete
  by_cases hk : k = key
  · simp [hk, h]
  · simp [hk]

/-- When `Reserve` returns a task, it left the loop with a message that
decodes to that task and stored the lease of that message under the task's id
as its last effect. -/
theorem Reserve_lease {β : Type} (q : Queues β) (c : Codec) (mq : IronMQ) (b : β) (job : Task)
    (hret : (Reserve q c mq b).ret.1 = some job) :
    ∃ (pre : List Effect) (i : Nat) (m : Message) (rest : List Message)
      (e : Option BackendError) (b1 : β),
      m.Body ≠ "" ∧ c.Unmarshal m.Body = .ok job ∧
      Reserve q c mq b =
        ⟨(some job, none),
          { mq with msgAssoc := mapStore mq.msgAssoc job.ID ⟨m.Id, m.ReservationId⟩ }, b1,
          pre ++ [Effect.LongPoll i 1 mq.reserveTimeout 0 false (m :: rest) e,
            Effect.mapStore job.ID ⟨m.Id, m.ReservationId⟩], false⟩ := by
  rcases Reserve_cases q c mq b with
    ⟨ms, e, b2, h2, hq, hR⟩ | ⟨m, rest, e, b2, h2, ha, hR⟩ |
    ⟨e2, b2, ms, e, b1, h2, ha2, h1, hq, hR⟩ | ⟨e2, b2, m, rest, e, b1, h2, ha2, h1, ha, hR⟩ |
    ⟨e2, b2, e1, b1, ms, e, b0, h2, ha2, h1, ha1, h0, hq, hR⟩ |
    ⟨e2, b2, e1, b1, m, rest, e, b0, h2, ha2, h1, ha1, h0, ha, hR⟩ |
    ⟨e2, b2, e1, b1, e0, b0, h2, ha2, h1, ha1, h0, ha0, hR⟩
  · rw [hR] at hret; simp at hret
  · rcases afterLoop_cases c mq b2 _ m with ⟨_, _, hA⟩ | ⟨e', _, _, _, hA⟩ | ⟨job', hb, hu, _, hA⟩
    · rw [hR, hA] at hret; simp at hret
    · rw [hR, hA] at hret; simp at hret
    · rw [hR, hA] at hret
      simp only [Option.some.injEq] at hret
      subst hret
      exact ⟨[], 2, m, rest, e, b2, hb, hu, by rw [hR, hA]; rfl⟩
  · rw [hR] at hret; simp at hret
  · rcases afterLoop_cases c mq b1 _ m with ⟨_, _, hA⟩ | ⟨e', _, _, _, hA⟩ | ⟨job', hb, hu, _, hA⟩
    · rw [hR, hA] at hret; simp at hret
    · rw [hR, hA] at hret; simp at hret
    · rw [hR, hA] at hret
      simp only [Option.some.injEq] at hret
      subst hret
      exact ⟨[_], 1, m, rest, e, b1, hb, hu, by rw [hR, hA]; rfl⟩
  · rw [hR] at hret; simp at hret
  · rcases afterLoop_cases c mq b0 _ m with ⟨_, _, hA⟩ | ⟨e', _, _, _, hA⟩ | ⟨job', hb, hu, _, hA⟩
    · rw [hR, hA] at hret; simp at hret
    · rw [hR, hA] at hret; simp at hret
    · rw [hR, hA] at hret
      simp only [Option.some.injEq] at hret
      subst hret
      exact ⟨[_, _], 0, m, rest, e, b0, hb, hu, by rw [hR, hA]; rfl⟩
  · rw [hR] at hret; simp at hret

theorem mapStore_self (m : String → Option assoc) (key : String) (val : assoc) :
    mapStore m key val key = some val := by
  simp [mapStore]

theorem mapStore_other (m : String → Option assoc) (key : String) (val : assoc) (k : String)
    (h : k ≠ key) : mapStore m key val k = m k := by
  simp [mapStore, h]

theorem mapDelete_self (m : String → Option assoc) (key : String) :
    mapDelete m key key = none := by
  simp [mapDelete]

/-! ## No runtime panic -/

/-- The operation `Reserve` never indexes an empty list of messages. -/
theorem Reserve_no_panic {β : Type} (q : Queues β) (c : Codec) (mq : IronMQ) (b : β) :
    (Reserve q c mq b).panicked = false := by
  obtain ⟨x, b1, evs, _, hR⟩ := Reserve_run q c mq b
  rcases hR with ⟨r, _, hR⟩ | ⟨m, rest, _, hR⟩
  · rw [hR]
  · rcases afterLoop_cases c mq b1 evs m with ⟨_, _, hA⟩ | ⟨e, _, _, _, hA⟩ | ⟨job, _, _, _, hA⟩ <;>
      rw [hR, hA]

/-- After `validate`, `Delete` dereferences no nil pointer and indexes
`mq.queues` within its bounds. -/
theorem Delete_no_panic {β : Type} (q : Queues β) (mq : IronMQ) (b : β) (job : Option Task) :
    (Delete q mq b job).panicked = false := by
  rcases job with _ | j
  · rfl
  · rcases hv : validate (some j) with _ | err
    · obtain ⟨i, hp, hi⟩ := (validate_eq_none j).1 hv
      rcases hl : mq.msgAssoc j.ID with _ | a
      · rw [Delete_of_no_lease q mq b j hv hl]
      · rw [Delete_of_lease q mq b j a i hp hi hl]
    · unfold Delete
      simp only [hv]

/-- After `validate`, `Push` dereferences no nil pointer and indexes
`mq.queues` within its bounds. -/
theorem Push_no_panic {β : Type} (q : Queues β) (c : Codec) (mq : IronMQ) (b : β)
    (job : Option Task) : (Push q c mq b job).panicked = false := by
  rcases job with _ | j
  · rfl
  · rcases hv : validate (some j) with _ | err
    · obtain ⟨i, hp, hi⟩ := (validate_eq_none j).1 hv
      unfold Push
      simp only [hv, hp, Option.bind, queueIndex_natCast i hi]
      cases c.Marshal j <;> rfl
    · unfold Push
      simp only [hv]

/-! ## Reserve: priority order -/

/-- C1. Reserve is strictly priority-ordered. In every run in which no poll
fails, the polls issued are those of tier 2, then tier 1, then tier 0 (each for
one message, with the configured wait and without auto-delete), up to and
including the first tier whose poll delivers a message and no tier after it;
the value returned is decoded from the first message of that tier, and is no
task and no error when all three polls deliver nothing. In particular, when the
poll of tier 2 delivers a message, that poll is the only one and the tier-2
message is the one decoded, whatever tiers 1 and 0 hold. -/
theorem Reserve_strict_priority {β : Type} (q : Queues β) (c : Codec) (mq : IronMQ) (b : β)
    (hok : ∀ i n t w d ms e,
      Effect.LongPoll i n t w d ms e ∈ (Reserve q c mq b).effects → e = none) :
    ((∃ m rest,
        (Reserve q c mq b).effects.filter isPoll =
          [Effect.LongPoll 2 1 mq.reserveTimeout 0 false (m :: rest) none] ∧
        (Reserve q c mq b).ret = decodeResult c m) ∨
      (∃ m rest,
        (Reserve q c mq b).effects.filter isPoll =
          [Effect.LongPoll 2 1 mq.reserveTimeout 0 false [] none,
           Effect.LongPoll 1 1 mq.reserveTimeout 0 false (m :: rest) none] ∧
        (Reserve q c mq b).ret = decodeResult c m) ∨
      (∃ m rest,
        (Reserve q c mq b).effects.filter isPoll =
          [Effect.LongPoll 2 1 mq.reserveTimeout 0 false [] none,
           Effect.LongPoll 1 1 mq.reserveTimeout 0 false [] none,
           Effect.LongPoll 0 1 mq.reserveTimeout 0 false (m :: rest) none] ∧
        (Reserve q c mq b).ret = decodeResult c m) ∨
      ((Reserve q c mq b).effects.filter isPoll =
          [Effect.LongPoll 2 1 mq.reserveTimeout 0 false [] none,
           Effect.LongPoll 1 1 mq.reserveTimeout 0 false [] none,
           Effect.LongPoll 0 1 mq.reserveTimeout 0 false [] none] ∧
        (Reserve q c mq b).ret = (none, none))) ∧
    (∀ m rest, (q.LongPoll 2 1 mq.reserveTimeout 0 false b).1 = (m :: rest, none) →
      (Reserve q c mq b).effects.filter isPoll =
          [Effect.LongPoll 2 1 mq.reserveTimeout 0 false (m :: rest) none] ∧
        (Reserve q c mq b).ret = decodeResult c m) := by
  rcases Reserve_cases q c mq b with
    ⟨ms, e, b2, h2, hq, hR⟩ | ⟨m, rest, e, b2, h2, ha, hR⟩ |
    ⟨e2, b2, ms, e, b1, h2, ha2, h1, hq, hR⟩ | ⟨e2, b2, m, rest, e, b1, h2, ha2, h1, ha, hR⟩ |
    ⟨e2, b2, e1, b1, ms, e, b0, h2, ha2, h1, ha1, h0, hq, hR⟩ |
    ⟨e2, b2, e1, b1, m, rest, e, b0, h2, ha2, h1, ha1, h0, ha, hR⟩ |
    ⟨e2, b2, e1, b1, e0, b0, h2, ha2, h1, ha1, h0, ha0, hR⟩ <;>
  rw [hR] at hok ⊢ <;>
  simp only [mem_afterLoop_poll, afterLoop_polls, afterLoop_ret] at hok ⊢
  · exact absurd (hok 2 1 mq.reserveTimeout 0 false ms (some e) (by simp)) (by simp)
  · obtain rfl := hok 2 1 mq.reserveTimeout 0 false (m :: rest) e (by simp)
    simp [isPoll, h2]
  · exact absurd (hok 1 1 mq.reserveTimeout 0 false ms (some e) (by simp)) (by simp)
  · obtain rfl := hok 2 1 mq.reserveTimeout 0 false [] e2 (by simp)
    obtain rfl := hok 1 1 mq.reserveTimeout 0 false (m :: rest) e (by simp)
    simp [isPoll, h2]
  · exact absurd (hok 0 1 mq.reserveTimeout 0 false ms (some e) (by simp)) (by simp)
  · obtain rfl := hok 2 1 mq.reserveTimeout 0 false [] e2 (by simp)
    obtain rfl := hok 1 1 mq.reserveTimeout 0 false [] e1 (by simp)
    obtain rfl := hok 0 1 mq.reserveTimeout 0 false (m :: rest) e (by simp)
    simp [isPoll, h2]
  · obtain rfl := hok 2 1 mq.reserveTimeout 0 false [] e2 (by simp)
    obtain rfl := hok 1 1 mq.reserveTimeout 0 false [] e1 (by simp)
    obtain rfl := hok 0 1 mq.reserveTimeout 0 false [] e0 (by simp)
    simp [isPoll, h2]

/-- C1 at a concrete input: with messages visible in tiers 0, 1 and 2 at once,
only tier 2 is polled and the tier-2 task is returned. -/
theorem Reserve_strict_priority_witness :
    (Reserve cannedQueues idCodec (emptyMQ 60) threeTiers).effects.filter isPoll =
        [Effect.LongPoll 2 1 60 0 false [⟨"m2", "t2", 0, "r2"⟩] none] ∧
      (Reserve cannedQueues idCodec (emptyMQ 60) threeTiers).ret =
        (some ⟨"t2", some 1, 0, ""⟩, none) := by
  have hok : ∀ i n t w d ms e,
      Effect.LongPoll i n t w d ms e ∈
        (Reserve cannedQueues idCodec (emptyMQ 60) threeTiers).effects → e = none := by
    intro i n t w d ms e h
    have he : (Reserve cannedQueues idCodec (emptyMQ 60) threeTiers).effects =
        [Effect.LongPoll 2 1 60 0 false [⟨"m2", "t2", 0, "r2"⟩] none,
         Effect.mapStore "t2" ⟨"m2", "r2"⟩] := by decide
    rw [he] at h
    simp at h
    exact h.2.2.2.2.2.2
  have h := (Reserve_strict_priority cannedQueues idCodec (emptyMQ 60) threeTiers hok).2
    ⟨"m2", "t2", 0, "r2"⟩ [] rfl
  refine ⟨h.1, ?_⟩
  rw [h.2]
  decide

/-! ## Delete -/

/-- C2, as stated, fails: `Reserve` does not validate the task it decodes, and
`Delete` does. Tier 2 holds a message whose body decodes to a task of priority
7; `Reserve` succeeds and returns that task; the backend accepts every delete
(the answer to every `DeleteMessage` is no error); yet the first `Delete` of
that task returns the invalid-priority error, and so does the second, which is
not `ErrMQTaskNotReserved`. -/
theorem Delete_after_Reserve_unvalidated :
    (Reserve cannedQueues idCodec (emptyMQ 60) foreignBody).ret =
        (some ⟨"t7", some 7, 0, ""⟩, none) ∧
      (∀ (i : Nat) (id rid : String), (cannedQueues.DeleteMessage i id rid
          (Reserve cannedQueues idCodec (emptyMQ 60) foreignBody).backend).1 = none) ∧
      (Delete cannedQueues (Reserve cannedQueues idCodec (emptyMQ 60) foreignBody).mq
          (Reserve cannedQueues idCodec (emptyMQ 60) foreignBody).backend
          (some ⟨"t7", some 7, 0, ""⟩)).ret = some GoError.InvalidPriority ∧
      (Delete cannedQueues
          (Delete cannedQueues (Reserve cannedQueues idCodec (emptyMQ 60) foreignBody).mq
            (Reserve cannedQueues idCodec (emptyMQ 60) foreignBody).backend
            (some ⟨"t7", some 7, 0, ""⟩)).mq
          (Delete cannedQueues (Reserve cannedQueues idCodec (emptyMQ 60) foreignBody).mq
            (Reserve cannedQueues idCodec (emptyMQ 60) foreignBody).backend
            (some ⟨"t7", some 7, 0, ""⟩)).backend
          (some ⟨"t7", some 7, 0, ""⟩)).ret = some GoError.InvalidPriority := by
  refine ⟨by decide, fun _ _ _ => rfl, by decide, by decide⟩

/-- C2, amended. For every task returned by a successful `Reserve` that passes
validation: the first `Delete` of that task issues a backend delete, and when
the backend accepts it (the recorded answer is no error) that `Delete` returns
no error; a second `Delete` of the same task, run right after the first,
returns `ErrMQTaskNotReserved`. -/
theorem Delete_once_after_Reserve {β : Type} (q : Queues β) (c : Codec) (mq : IronMQ) (b : β)
    (job : Task) (hres : (Reserve q c mq b).ret = (some job, none))
    (hval : validate (some job) = none)
    (hacc : ∀ i id rid e,
      Effect.DeleteMessage i id rid e ∈
        (Delete q (Reserve q c mq b).mq (Reserve q c mq b).backend (some job)).effects →
      e = none) :
    (∃ i id rid, Effect.DeleteMessage i id rid none ∈
        (Delete q (Reserve q c mq b).mq (Reserve q c mq b).backend (some job)).effects) ∧
    (Delete q (Reserve q c mq b).mq (Reserve q c mq b).backend (some job)).ret = none ∧
    (Delete q
        (Delete q (Reserve q c mq b).mq (Reserve q c mq b).backend (some job)).mq
        (Delete q (Reserve q c mq b).mq (Reserve q c mq b).backend (some job)).backend
        (some job)).ret = some GoError.ErrMQTaskNotReserved := by
  obtain ⟨pre, i, m, rest, e, b1, hb, hu, hR⟩ :=
    Reserve_lease q c mq b job (by rw [hres])
  obtain ⟨p, hp, hp2⟩ := (validate_eq_none job).1 hval
  have hD := Delete_of_lease q (Reserve q c mq b).mq (Reserve q c mq b).backend job
    ⟨m.Id, m.ReservationId⟩ p hp hp2 (by rw [hR]; exact mapStore_self _ _ _)
  rw [hD] at hacc ⊢
  have hnone : (q.DeleteMessage p m.Id m.ReservationId (Reserve q c mq b).backend).1 = none :=
    hacc p m.Id m.ReservationId _ (by simp)
  refine ⟨⟨p, m.Id, m.ReservationId, by simp [hnone]⟩, by simp [hnone], ?_⟩
  exact congrArg Outcome.ret (Delete_of_no_lease q _ _ job hval (mapDelete_self _ _))

/-- C2 (amended) at a concrete input: the task reserved from tier 2 of three
full tiers is deleted once, and the second delete is refused. -/
theorem Delete_once_after_Reserve_witness :
    (Delete cannedQueues (Reserve cannedQueues idCodec (emptyMQ 60) threeTiers).mq
        (Reserve cannedQueues idCodec (emptyMQ 60) threeTiers).backend
        (some ⟨"t2", some 1, 0, ""⟩)).ret = none ∧
    (Delete cannedQueues
        (Delete cannedQueues (Reserve cannedQueues idCodec (emptyMQ 60) threeTiers).mq
          (Reserve cannedQueues idCodec (emptyMQ 60) threeTiers).backend
          (some ⟨"t2", some 1, 0, ""⟩)).mq
        (Delete cannedQueues (Reserve cannedQueues idCodec (emptyMQ 60) threeTiers).mq
          (Reserve cannedQueues idCodec (emptyMQ 60) threeTiers).backend
          (some ⟨"t2", some 1, 0, ""⟩)).backend
        (some ⟨"t2", some 1, 0, ""⟩)).ret = some GoError.ErrMQTaskNotReserved :=
  (Delete_once_after_Reserve cannedQueues idCodec (emptyMQ 60) threeTiers
    ⟨"t2", some 1, 0, ""⟩ (by decide) (by decide)
    (by
      intro i id rid e h
      have he : (Delete cannedQueues (Reserve cannedQueues idCodec (emptyMQ 60) threeTiers).mq
          (Reserve cannedQueues idCodec (emptyMQ 60) threeTiers).backend
          (some ⟨"t2", some 1, 0, ""⟩)).effects =
          [Effect.mapDelete "t2", Effect.DeleteMessage 1 "m2" "r2" none] := by decide
      rw [he] at h
      simp at h
      exact h.2.2.2)).2

/-- C3. For every valid task whose id has no entry in the lease registry,
`Delete` returns `ErrMQTaskNotReserved`, issues no backend delete call (its
effects hold no `DeleteMessage`, and the backend is as before), and leaves the
registry unchanged. -/
theorem Delete_without_lease {β : Type} (q : Queues β) (mq : IronMQ) (b : β) (job : Task)
    (hval : validate (some job) = none) (hno : mq.msgAssoc job.ID = none) :
    (Delete q mq b (some job)).ret = some GoError.ErrMQTaskNotReserved ∧
    (∀ i id rid e, Effect.DeleteMessage i id rid e ∉ (Delete q mq b (some job)).effects) ∧
    (Delete q mq b (some job)).backend = b ∧
    (Delete q mq b (some job)).mq.msgAssoc = mq.msgAssoc := by
  rw [Delete_of_no_lease q mq b job hval hno]
  refine ⟨rfl, ?_, rfl, mapDelete_absent _ _ hno⟩
  intro i id rid e
  simp

/-- C3 at a concrete input: deleting a valid task from a broker without leases. -/
theorem Delete_without_lease_witness :
    (Delete cannedQueues (emptyMQ 60) threeTiers (some ⟨"t9", some 2, 0, ""⟩)).ret =
      some GoError.ErrMQTaskNotReserved :=
  (Delete_without_lease cannedQueues (emptyMQ 60) threeTiers ⟨"t9", some 2, 0, ""⟩
    (by decide) rfl).1

/-- C4. For every valid task that has a lease entry, `Delete` calls the backend
delete of the queue of the task's priority with the recorded handles, and
returns: no error when that call succeeds; `ErrMQTaskNotReserved` when the call
fails with the reservation-expired error; the backend's error itself for every
other failure. `ErrReservationTimedOut` holds exactly for the errors whose text
is "403 Forbidden: Reservation has timed out". -/
theorem Delete_result {β : Type} (q : Queues β) (mq : IronMQ) (b : β) (job : Task) (a : assoc)
    (hval : validate (some job) = none) (hlease : mq.msgAssoc job.ID = some a) :
    (∃ i : Nat, job.Priority = some (i : Int) ∧ i ≤ 2 ∧
      ((q.DeleteMessage i a.msgId a.reservationId b).1 = none →
        (Delete q mq b (some job)).ret = none) ∧
      (∀ e, (q.DeleteMessage i a.msgId a.reservationId b).1 = some e →
        e.Error = "403 Forbidden: Reservation has timed out" →
        (Delete q mq b (some job)).ret = some GoError.ErrMQTaskNotReserved) ∧
      (∀ e, (q.DeleteMessage i a.msgId a.reservationId b).1 = some e →
        e.Error ≠ "403 Forbidden: Reservation has timed out" →
        (Delete q mq b (some job)).ret = some (GoError.backend e))) ∧
    (∀ e : BackendError, ErrReservationTimedOut e = true ↔
      e.Error = "403 Forbidden: Reservation has timed out") := by
  have hT : ∀ e : BackendError, ErrReservationTimedOut e = true ↔
      e.Error = "403 Forbidden: Reservation has timed out" := by
    intro e
    simp [ErrReservationTimedOut]
  refine ⟨?_, hT⟩
  obtain ⟨i, hp, hi⟩ := (validate_eq_none job).1 hval
  refine ⟨i, hp, hi, ?_⟩
  rw [Delete_of_lease q mq b job a i hp hi hlease]
  refine ⟨?_, ?_, ?_⟩
  · intro h
    simp [h]
  · intro e h he
    simp [h, (hT e).2 he]
  · intro e h he
    have : ¬ ErrReservationTimedOut e = true := fun hc => he ((hT e).1 hc)
    simp [h, this]

/-- C4 at a concrete input: a broker holding one lease, for task `"t1"`, and a
backend that accepts the delete. -/
theorem Delete_result_witness :
    ∃ i : Nat, (some 1 : Option Int) = some (i : Int) ∧ i ≤ 2 ∧
      ((cannedQueues.DeleteMessage i "m1" "r1" threeTiers).1 = none →
        (Delete cannedQueues ⟨mapStore (fun _ => none) "t1" ⟨"m1", "r1"⟩, 60⟩ threeTiers
          (some ⟨"t1", some 1, 0, ""⟩)).ret = none) :=
  have h := (Delete_result cannedQueues ⟨mapStore (fun _ => none) "t1" ⟨"m1", "r1"⟩, 60⟩
    threeTiers ⟨"t1", some 1, 0, ""⟩ ⟨"m1", "r1"⟩ (by decide) (by decide)).1
  h.elim fun i hi => ⟨i, hi.1, hi.2.1, hi.2.2.1⟩

/-! ## Reserve: errors and empty tiers -/

/-- A backend error returned by `Reserve` is never a queue-not-found error. -/
theorem Reserve_ret_backend {β : Type} (q : Queues β) (c : Codec) (mq : IronMQ) (b : β)
    (e : BackendError) (h : (Reserve q c mq b).ret.2 = some (GoError.backend e)) :
    q.ErrQueueNotFound e = false := by
  rcases Reserve_cases q c mq b with
    ⟨ms, e', b2, h2, hq2, hR⟩ | ⟨m, rest, e', b2, h2, ha, hR⟩ |
    ⟨e2, b2, ms, e', b1, h2, ha2, h1, hq1, hR⟩ | ⟨e2, b2, m, rest, e', b1, h2, ha2, h1, ha, hR⟩ |
    ⟨e2, b2, e1, b1, ms, e', b0, h2, ha2, h1, ha1, h0, hq0, hR⟩ |
    ⟨e2, b2, e1, b1, m, rest, e', b0, h2, ha2, h1, ha1, h0, ha, hR⟩ |
    ⟨e2, b2, e1, b1, e0, b0, h2, ha2, h1, ha1, h0, ha0, hR⟩
  · rw [hR] at h; simp at h; subst h; exact hq2
  · rw [hR, afterLoop_ret] at h
    unfold decodeResult at h
    by_cases hb : m.Body = ""
    · simp [hb] at h
    · cases hu : c.Unmarshal m.Body <;> simp [hb, hu] at h
  · rw [hR] at h; simp at h; subst h; exact hq1
  · rw [hR, afterLoop_ret] at h
    unfold decodeResult at h
    by_cases hb : m.Body = ""
    · simp [hb] at h
    · cases hu : c.Unmarshal m.Body <;> simp [hb, hu] at h
  · rw [hR] at h; simp at h; subst h; exact hq0
  · rw [hR, afterLoop_ret] at h
    unfold decodeResult at h
    by_cases hb : m.Body = ""
    · simp [hb] at h
    · cases hu : c.Unmarshal m.Body <;> simp [hb, hu] at h
  · rw [hR] at h; simp at h

/-- C5. In `Reserve`, a poll that fails with the backend's queue-not-found error
and delivers no message is treated exactly like a poll that delivers no message
without failing (`err` below is either): when the tier is above 0, the next
effect of `Reserve` is the poll of the next lower tier; when it is tier 0, no
effect follows and `Reserve` returns no task and no error; and the
queue-not-found error is not the error returned to the caller. -/
theorem Reserve_queue_not_found {β : Type} (q : Queues β) (c : Codec) (mq : IronMQ) (b : β)
    (k i : Nat) (n t w : Int) (d : Bool) (err : Option BackendError)
    (hpoll : (Reserve q c mq b).effects[k]? = some (Effect.LongPoll i n t w d [] err))
    (hq : ∀ e, err = some e → q.ErrQueueNotFound e = true) :
    (∀ j, i = j + 1 → ∃ ms e1, (Reserve q c mq b).effects[k + 1]? =
        some (Effect.LongPoll j 1 mq.reserveTimeout 0 false ms e1)) ∧
    (i = 0 → (Reserve q c mq b).effects[k + 1]? = none ∧
      (Reserve q c mq b).ret = (none, none)) ∧
    (∀ e, err = some e → (Reserve q c mq b).ret.2 ≠ some (GoError.backend e)) := by
  refine ⟨?_, ?_, ?_⟩
  · -- the next lower tier is polled next
    rcases Reserve_cases q c mq b with
      ⟨ms, e, b2, h2, hq2, hR⟩ | ⟨m, rest, e, b2, h2, ha, hR⟩ |
      ⟨e2, b2, ms, e, b1, h2, ha2, h1, hq1, hR⟩ | ⟨e2, b2, m, rest, e, b1, h2, ha2, h1, ha, hR⟩ |
      ⟨e2, b2, e1, b1, ms, e, b0, h2, ha2, h1, ha1, h0, hq0, hR⟩ |
      ⟨e2, b2, e1, b1, m, rest, e, b0, h2, ha2, h1, ha1, h0, ha, hR⟩ |
      ⟨e2, b2, e1, b1, e0, b0, h2, ha2, h1, ha1, h0, ha0, hR⟩
    · rw [hR] at hpoll ⊢
      rcases k with _ | k
      · simp at hpoll ⊢
        obtain ⟨rfl, rfl, rfl, rfl, rfl, hms, rfl⟩ := hpoll
        simp_all [pollAborts]
      · simp at hpoll
    · rcases afterLoop_cases c mq b2 _ m
        with ⟨_, _, hA⟩ | ⟨e', _, _, _, hA⟩ | ⟨job', hb, hu, _, hA⟩ <;>
      rw [hR, hA] at hpoll ⊢ <;>
      rcases k with _ | _ | _ | _ | k <;> simp at hpoll ⊢
    · rw [hR] at hpoll ⊢
      rcases k with _ | _ | _ | _ | k <;> simp at hpoll ⊢ <;>
        (try obtain ⟨rfl, rfl, rfl, rfl, rfl, hms, rfl⟩ := hpoll) <;> simp_all [pollAborts]
    · rcases afterLoop_cases c mq b1 _ m
        with ⟨_, _, hA⟩ | ⟨e', _, _, _, hA⟩ | ⟨job', hb, hu, _, hA⟩ <;>
      rw [hR, hA] at hpoll ⊢ <;>
      rcases k with _ | _ | _ | _ | k <;> simp at hpoll ⊢ <;>
        (try obtain ⟨rfl, rfl, rfl, rfl, rfl, hms, rfl⟩ := hpoll) <;> simp_all [pollAborts]
    · rw [hR] at hpoll ⊢
      rcases k with _ | _ | _ | _ | k <;> simp at hpoll ⊢ <;>
        (try obtain ⟨rfl, rfl, rfl, rfl, rfl, hms, rfl⟩ := hpoll) <;> simp_all [pollAborts]
    · rcases afterLoop_cases c mq b0 _ m
        with ⟨_, _, hA⟩ | ⟨e', _, _, _, hA⟩ | ⟨job', hb, hu, _, hA⟩ <;>
      rw [hR, hA] at hpoll ⊢ <;>
      rcases k with _ | _ | _ | _ | k <;> simp at hpoll ⊢ <;>
        (try obtain ⟨rfl, rfl, rfl, rfl, rfl, hms, rfl⟩ := hpoll) <;> simp_all [pollAborts]
    · rw [hR] at hpoll ⊢
      rcases k with _ | _ | _ | _ | k <;> simp at hpoll ⊢ <;>
        (try obtain ⟨rfl, rfl, rfl, rfl, rfl, hms, rfl⟩ := hpoll) <;> simp_all [pollAborts]
  · -- tier 0: nothing follows, and no task and no error are returned
    rcases Reserve_cases q c mq b with
      ⟨ms, e, b2, h2, hq2, hR⟩ | ⟨m, rest, e, b2, h2, ha, hR⟩ |
      ⟨e2, b2, ms, e, b1, h2, ha2, h1, hq1, hR⟩ | ⟨e2, b2, m, rest, e, b1, h2, ha2, h1, ha, hR⟩ |
      ⟨e2, b2, e1, b1, ms, e, b0, h2, ha2, h1, ha1, h0, hq0, hR⟩ |
      ⟨e2, b2, e1, b1, m, rest, e, b0, h2, ha2, h1, ha1, h0, ha, hR⟩ |
      ⟨e2, b2, e1, b1, e0, b0, h2, ha2, h1, ha1, h0, ha0, hR⟩
    · rw [hR] at hpoll ⊢
      rcases k with _ | k
      · simp at hpoll ⊢
        obtain ⟨rfl, rfl, rfl, rfl, rfl, hms, rfl⟩ := hpoll
        simp_all [pollAborts]
      · simp at hpoll
    · rcases afterLoop_cases c mq b2 _ m
        with ⟨_, _, hA⟩ | ⟨e', _, _, _, hA⟩ | ⟨job', hb, hu, _, hA⟩ <;>
      rw [hR, hA] at hpoll ⊢ <;>
      rcases k with _ | _ | _ | _ | k <;> simp at hpoll ⊢
    · rw [hR] at hpoll ⊢
      rcases k with _ | _ | _ | _ | k <;> simp at hpoll ⊢ <;>
        (try obtain ⟨rfl, rfl, rfl, rfl, rfl, hms, rfl⟩ := hpoll) <;> simp_all [pollAborts]
    · rcases afterLoop_cases c mq b1 _ m
        with ⟨_, _, hA⟩ | ⟨e', _, _, _, hA⟩ | ⟨job', hb, hu, _, hA⟩ <;>
      rw [hR, hA] at hpoll ⊢ <;>
      rcases k with _ | _ | _ | _ | k <;> simp at hpoll ⊢ <;>
        (try obtain ⟨rfl, rfl, rfl, rfl, rfl, hms, rfl⟩ := hpoll) <;> simp_all [pollAborts]
    · rw [hR] at hpoll ⊢
      rcases k with _ | _ | _ | _ | k <;> simp at hpoll ⊢ <;>
        (try obtain ⟨rfl, rfl, rfl, rfl, rfl, hms, rfl⟩ := hpoll) <;> simp_all [pollAborts]
    · rcases afterLoop_cases c mq b0 _ m
        with ⟨_, _, hA⟩ | ⟨e', _, _, _, hA⟩ | ⟨job', hb, hu, _, hA⟩ <;>
      rw [hR, hA] at hpoll ⊢ <;>
      rcases k with _ | _ | _ | _ | k <;> simp at hpoll ⊢ <;>
        (try obtain ⟨rfl, rfl, rfl, rfl, rfl, hms, rfl⟩ := hpoll) <;> simp_all [pollAborts]
    · rw [hR] at hpoll ⊢
      rcases k with _ | _ | _ | _ | k <;> simp at hpoll ⊢ <;>
        (try obtain ⟨rfl, rfl, rfl, rfl, rfl, hms, rfl⟩ := hpoll) <;> simp_all [pollAborts]
  · intro e he hc
    have h1 := Reserve_ret_backend q c mq b e hc
    rw [hq e he] at h1
    exact absurd h1 (by simp)

/-- A poll of `Reserve` that fails with an error other than queue-not-found is
the last effect, comes after polls of higher tiers only, and its error is
returned. -/
theorem Reserve_abort_shape {β : Type} (q : Queues β) (c : Codec) (mq : IronMQ) (b : β)
    (k i : Nat) (n t w : Int) (d : Bool) (ms : List Message) (e : BackendError)
    (hpoll : (Reserve q c mq b).effects[k]? = some (Effect.LongPoll i n t w d ms (some e)))
    (hq : q.ErrQueueNotFound e = false) :
    (Reserve q c mq b).ret = (none, some (GoError.backend e)) ∧
    (Reserve q c mq b).mq = mq ∧
    ∃ pre, (Reserve q c mq b).effects = pre ++ [Effect.LongPoll i n t w d ms (some e)] ∧
      pre.length = k ∧
      ∀ ev ∈ pre, ∃ j e2, i < j ∧ ev = Effect.LongPoll j 1 mq.reserveTimeout 0 false [] e2 := by
  rcases Reserve_cases q c mq b with
    ⟨ms', e', b2, h2, hq2, hR⟩ | ⟨m, rest, e', b2, h2, ha, hR⟩ |
    ⟨e2, b2, ms', e', b1, h2, ha2, h1, hq1, hR⟩ | ⟨e2, b2, m, rest, e', b1, h2, ha2, h1, ha, hR⟩ |
    ⟨e2, b2, e1, b1, ms', e', b0, h2, ha2, h1, ha1, h0, hq0, hR⟩ |
    ⟨e2, b2, e1, b1, m, rest, e', b0, h2, ha2, h1, ha1, h0, ha, hR⟩ |
    ⟨e2, b2, e1, b1, e0, b0, h2, ha2, h1, ha1, h0, ha0, hR⟩
  · rw [hR] at hpoll ⊢
    rcases k with _ | k
    · simp at hpoll
      obtain ⟨rfl, rfl, rfl, rfl, rfl, rfl, rfl⟩ := hpoll
      exact ⟨rfl, rfl, [], rfl, rfl, by simp⟩
    · simp at hpoll
  · exfalso
    rcases afterLoop_cases c mq b2 _ m
      with ⟨_, _, hA⟩ | ⟨e'', _, _, _, hA⟩ | ⟨job', hb, hu, _, hA⟩ <;>
    rw [hR, hA] at hpoll <;>
    rcases k with _ | _ | _ | _ | k <;> simp at hpoll <;>
      (try obtain ⟨rfl, rfl, rfl, rfl, rfl, hms, rfl⟩ := hpoll) <;> simp_all [pollAborts]
  · rw [hR] at hpoll ⊢
    rcases k with _ | _ | k
    · simp at hpoll
      obtain ⟨rfl, rfl, rfl, rfl, rfl, rfl, rfl⟩ := hpoll
      simp [pollAborts, hq] at ha2
    · simp at hpoll
      obtain ⟨rfl, rfl, rfl, rfl, rfl, rfl, rfl⟩ := hpoll
      exact ⟨rfl, rfl, [_], rfl, rfl, by simp⟩
    · simp at hpoll
  · exfalso
    rcases afterLoop_cases c mq b1 _ m
      with ⟨_, _, hA⟩ | ⟨e'', _, _, _, hA⟩ | ⟨job', hb, hu, _, hA⟩ <;>
    rw [hR, hA] at hpoll <;>
    rcases k with _ | _ | _ | _ | k <;> simp at hpoll <;>
      (try obtain ⟨rfl, rfl, rfl, rfl, rfl, hms, rfl⟩ := hpoll) <;> simp_all [pollAborts]
  · rw [hR] at hpoll ⊢
    rcases k with _ | _ | _ | k
    · simp at hpoll
      obtain ⟨rfl, rfl, rfl, rfl, rfl, rfl, rfl⟩ := hpoll
      simp [pollAborts, hq] at ha2
    · simp at hpoll
      obtain ⟨rfl, rfl, rfl, rfl, rfl, rfl, rfl⟩ := hpoll
      simp [pollAborts, hq] at ha1
    · simp at hpoll
      obtain ⟨rfl, rfl, rfl, rfl, rfl, rfl, rfl⟩ := hpoll
      exact ⟨rfl, rfl, [_, _], rfl, rfl, by simp⟩
    · simp at hpoll
  · exfalso
    rcases afterLoop_cases c mq b0 _ m
      with ⟨_, _, hA⟩ | ⟨e'', _, _, _, hA⟩ | ⟨job', hb, hu, _, hA⟩ <;>
    rw [hR, hA] at hpoll <;>
    rcases k with _ | _ | _ | _ | k <;> simp at hpoll <;>
      (try obtain ⟨rfl, rfl, rfl, rfl, rfl, hms, rfl⟩ := hpoll) <;> simp_all [pollAborts]
  · exfalso
    rw [hR] at hpoll
    rcases k with _ | _ | _ | k <;> simp at hpoll <;>
      (try obtain ⟨rfl, rfl, rfl, rfl, rfl, rfl, rfl⟩ := hpoll) <;> simp_all [pollAborts]

/-- C6. In `Reserve`, when a poll fails with an error other than queue-not-found
(the poll was issued, so no higher tier had yielded a message), `Reserve`
returns that error and no task, performs no effect after that poll, polls no
lower tier, and leaves the lease registry as it was. -/
theorem Reserve_backend_error {β : Type} (q : Queues β) (c : Codec) (mq : IronMQ) (b : β)
    (k i : Nat) (n t w : Int) (d : Bool) (ms : List Message) (e : BackendError)
    (hpoll : (Reserve q c mq b).effects[k]? = some (Effect.LongPoll i n t w d ms (some e)))
    (hq : q.ErrQueueNotFound e = false) :
    (Reserve q c mq b).ret = (none, some (GoError.backend e)) ∧
    (Reserve q c mq b).effects[k + 1]? = none ∧
    (∀ j n1 t1 w1 d1 ms1 e1, j < i →
      Effect.LongPoll j n1 t1 w1 d1 ms1 e1 ∉ (Reserve q c mq b).effects) ∧
    (Reserve q c mq b).mq.msgAssoc = mq.msgAssoc := by
  obtain ⟨hret, hmq, pre, heff, hlen, hpre⟩ :=
    Reserve_abort_shape q c mq b k i n t w d ms e hpoll hq
  refine ⟨hret, ?_, ?_, by rw [hmq]⟩
  · rw [heff, List.getElem?_eq_none]
    simp [hlen]
  · intro j n1 t1 w1 d1 ms1 e1 hj hmem
    rw [heff, List.mem_append] at hmem
    rcases hmem with hmem | hmem
    · obtain ⟨j', e2, hij, hev⟩ := hpre _ hmem
      simp only [Effect.LongPoll.injEq] at hev
      omega
    · simp only [List.mem_singleton, Effect.LongPoll.injEq] at hmem
      omega

/-- C7. If every poll that `Reserve` issues returns no message, and no error
other than queue-not-found, then `Reserve` returns no task and no error, and
its effects are exactly three polls: tier 2, tier 1, tier 0, once each. -/
theorem Reserve_nothing_available {β : Type} (q : Queues β) (c : Codec) (mq : IronMQ) (b : β)
    (hempty : ∀ i n t w d ms e,
      Effect.LongPoll i n t w d ms e ∈ (Reserve q c mq b).effects →
      ms = [] ∧ ∀ e1, e = some e1 → q.ErrQueueNotFound e1 = true) :
    (Reserve q c mq b).ret = (none, none) ∧
    ∃ e2 e1 e0, (Reserve q c mq b).effects =
      [Effect.LongPoll 2 1 mq.reserveTimeout 0 false [] e2,
       Effect.LongPoll 1 1 mq.reserveTimeout 0 false [] e1,
       Effect.LongPoll 0 1 mq.reserveTimeout 0 false [] e0] := by
  rcases Reserve_cases q c mq b with
    ⟨ms', e', b2, h2, hq2, hR⟩ | ⟨m, rest, e', b2, h2, ha, hR⟩ |
    ⟨e2, b2, ms', e', b1, h2, ha2, h1, hq1, hR⟩ | ⟨e2, b2, m, rest, e', b1, h2, ha2, h1, ha, hR⟩ |
    ⟨e2, b2, e1, b1, ms', e', b0, h2, ha2, h1, ha1, h0, hq0, hR⟩ |
    ⟨e2, b2, e1, b1, m, rest, e', b0, h2, ha2, h1, ha1, h0, ha, hR⟩ |
    ⟨e2, b2, e1, b1, e0, b0, h2, ha2, h1, ha1, h0, ha0, hR⟩
  · have h := (hempty 2 1 mq.reserveTimeout 0 false ms' (some e')
      (by rw [hR]; simp)).2 e' rfl
    rw [h] at hq2
    exact absurd hq2 (by simp)
  · have h := (hempty 2 1 mq.reserveTimeout 0 false (m :: rest) e'
      (by rw [hR, mem_afterLoop_poll]; simp)).1
    exact absurd h (by simp)
  · have h := (hempty 1 1 mq.reserveTimeout 0 false ms' (some e')
      (by rw [hR]; simp)).2 e' rfl
    rw [h] at hq1
    exact absurd hq1 (by simp)
  · have h := (hempty 1 1 mq.reserveTimeout 0 false (m :: rest) e'
      (by rw [hR, mem_afterLoop_poll]; simp)).1
    exact absurd h (by simp)
  · have h := (hempty 0 1 mq.reserveTimeout 0 false ms' (some e')
      (by rw [hR]; simp)).2 e' rfl
    rw [h] at hq0
    exact absurd hq0 (by simp)
  · have h := (hempty 0 1 mq.reserveTimeout 0 false (m :: rest) e'
      (by rw [hR, mem_afterLoop_poll]; simp)).1
    exact absurd h (by simp)
  · rw [hR]
    exact ⟨rfl, e2, e1, e0, rfl⟩

/-- C8. When `Reserve` returns a task, the task was decoded from the first
message of the last poll, the last effect is the store of that message's id
and reservation id under the task's id, the lease registry afterwards maps the
task's id to exactly that pair (whatever it held before), and every entry for
a different id is unchanged. -/
theorem Reserve_records_lease {β : Type} (q : Queues β) (c : Codec) (mq : IronMQ) (b : β)
    (job : Task) (hret : (Reserve q c mq b).ret.1 = some job) :
    ∃ (pre : List Effect) (i : Nat) (m : Message) (rest : List Message)
      (e : Option BackendError),
      c.Unmarshal m.Body = .ok job ∧
      (Reserve q c mq b).effects =
        pre ++ [Effect.LongPoll i 1 mq.reserveTimeout 0 false (m :: rest) e,
          Effect.mapStore job.ID ⟨m.Id, m.ReservationId⟩] ∧
      (Reserve q c mq b).mq.msgAssoc job.ID = some ⟨m.Id, m.ReservationId⟩ ∧
      ∀ id, id ≠ job.ID → (Reserve q c mq b).mq.msgAssoc id = mq.msgAssoc id := by
  obtain ⟨pre, i, m, rest, e, b1, hb, hu, hR⟩ := Reserve_lease q c mq b job hret
  refine ⟨pre, i, m, rest, e, hu, ?_, ?_, ?_⟩
  · rw [hR]
  · rw [hR]
    exact mapStore_self _ _ _
  · intro id hid
    rw [hR]
    exact mapStore_other _ _ _ _ hid

/-! ## Push -/

/-- C9. `Push` of a null task fails with the empty-task error, and `Push` of a
task whose priority is not a tier index in 0..2 fails with the invalid-priority
error; in both cases no task is returned, no effect is performed (no message is
submitted to any queue) and the backend is as before. -/
theorem Push_invalid {β : Type} (q : Queues β) (c : Codec) (mq : IronMQ) (b : β) :
    ((Push q c mq b none).ret = (none, some GoError.EmptyTask) ∧
      (Push q c mq b none).effects = [] ∧ (Push q c mq b none).backend = b) ∧
    ∀ job : Task, (¬ ∃ p : Int, job.Priority = some p ∧ 0 ≤ p ∧ p ≤ 2) →
      (Push q c mq b (some job)).ret = (none, some GoError.InvalidPriority) ∧
      (Push q c mq b (some job)).effects = [] ∧ (Push q c mq b (some job)).backend = b := by
  refine ⟨⟨rfl, rfl, rfl⟩, ?_⟩
  intro job hp
  have hv : validate (some job) = some GoError.InvalidPriority := by
    obtain ⟨id, pr, dl, pl⟩ := job
    unfold validate
    rcases pr with _ | p
    · rfl
    · have : p < 0 ∨ p > 2 := by
        by_contra hc
        exact hp ⟨p, rfl, by omega, by omega⟩
      exact if_pos this
  unfold Push
  simp [hv]

/-- C9 at a concrete input: a task of priority 3. -/
theorem Push_invalid_witness :
    (Push cannedQueues idCodec (emptyMQ 60) threeTiers (some ⟨"t", some 3, 0, ""⟩)).ret =
      (none, some GoError.InvalidPriority) :=
  ((Push_invalid cannedQueues idCodec (emptyMQ 60) threeTiers).2 ⟨"t", some 3, 0, ""⟩
    (by
      rintro ⟨p, hp, h0, h2⟩
      simp only [Option.some.injEq] at hp
      omega)).1

/-- C10. For every task that passes validation and has the serialization `buf`,
`Push` performs exactly one effect: the submission, to the queue whose index is
the task's priority, of a message whose body is `buf` and whose delay is the
task's delay; when the backend accepts it, `Push` returns the same task and no
error. -/
theorem Push_valid {β : Type} (q : Queues β) (c : Codec) (mq : IronMQ) (b : β) (job : Task)
    (buf : String) (hval : validate (some job) = none) (hbuf : c.Marshal job = .ok buf) :
    ∃ i : Nat, job.Priority = some (i : Int) ∧ i ≤ 2 ∧
      (Push q c mq b (some job)).effects =
        [Effect.PushMessage i ⟨"", buf, job.Delay, ""⟩
          (q.PushMessage i ⟨"", buf, job.Delay, ""⟩ b).1.2] ∧
      (Push q c mq b (some job)).backend = (q.PushMessage i ⟨"", buf, job.Delay, ""⟩ b).2 ∧
      ((q.PushMessage i ⟨"", buf, job.Delay, ""⟩ b).1.2 = none →
        (Push q c mq b (some job)).ret = (some job, none)) := by
  obtain ⟨i, hp, hi⟩ := (validate_eq_none job).1 hval
  refine ⟨i, hp, hi, ?_⟩
  unfold Push
  simp only [hval, hbuf, hp, Option.bind, queueIndex_natCast i hi]
  simp only [true_and]
  intro h
  rw [h]
  rfl

/-- C10 at a concrete input: a task of priority 2 and delay 5. -/
theorem Push_valid_witness :
    ∃ i : Nat, (some 2 : Option Int) = some (i : Int) ∧ i ≤ 2 ∧
      (Push cannedQueues idCodec (emptyMQ 60) threeTiers (some ⟨"t", some 2, 5, "p"⟩)).effects =
        [Effect.PushMessage i ⟨"", "t", 5, ""⟩
          (cannedQueues.PushMessage i ⟨"", "t", 5, ""⟩ threeTiers).1.2] :=
  have h := Push_valid cannedQueues idCodec (emptyMQ 60) threeTiers ⟨"t", some 2, 5, "p"⟩ "t"
    (by decide) rfl
  h.elim fun i hi => ⟨i, hi.1, hi.2.1, hi.2.2.1⟩

/-! ## Concrete runs of Reserve -/

/-- C5 at a concrete input: the queue of tier 2 does not exist, and the poll
of tier 1 follows. -/
theorem Reserve_queue_not_found_witness :
    ∃ ms e1, (Reserve cannedQueues idCodec (emptyMQ 60) tierTwoMissing).effects[0 + 1]? =
      some (Effect.LongPoll 1 1 60 0 false ms e1) :=
  (Reserve_queue_not_found cannedQueues idCodec (emptyMQ 60) tierTwoMissing 0 2 1 60 0 false
    (some ⟨queueNotFoundText⟩) (by decide)
    (by
      intro e he
      simp only [Option.some.injEq] at he
      subst he
      decide)).1 1 rfl

/-- C6 at a concrete input: tier 2 is empty, the poll of tier 1 fails with a
server error, and tier 0 (which holds a message) is not polled. -/
theorem Reserve_backend_error_witness :
    (Reserve cannedQueues idCodec (emptyMQ 60) tierOneDown).ret =
      (none, some (GoError.backend ⟨"500 Internal Server Error"⟩)) :=
  (Reserve_backend_error cannedQueues idCodec (emptyMQ 60) tierOneDown 1 1 1 60 0 false []
    ⟨"500 Internal Server Error"⟩ (by decide) (by decide)).1

/-- C7 at a concrete input: two tiers whose queues do not exist and an empty
tier 0. -/
theorem Reserve_nothing_available_witness :
    (Reserve cannedQueues idCodec (emptyMQ 60) nothingQueued).ret = (none, none) :=
  (Reserve_nothing_available cannedQueues idCodec (emptyMQ 60) nothingQueued
    (by
      intro i n t w d ms e h
      have he : (Reserve cannedQueues idCodec (emptyMQ 60) nothingQueued).effects =
          [Effect.LongPoll 2 1 60 0 false [] (some ⟨queueNotFoundText⟩),
           Effect.LongPoll 1 1 60 0 false [] (some ⟨queueNotFoundText⟩),
           Effect.LongPoll 0 1 60 0 false [] none] := by decide
      rw [he] at h
      simp only [List.mem_cons, Effect.LongPoll.injEq, List.mem_singleton, List.not_mem_nil,
        or_false] at h
      rcases h with h | h | h
      · obtain ⟨-, -, -, -, -, rfl, rfl⟩ := h
        refine ⟨rfl, ?_⟩
        intro e1 he1
        simp only [Option.some.injEq] at he1
        subst he1
        decide
      · obtain ⟨-, -, -, -, -, rfl, rfl⟩ := h
        refine ⟨rfl, ?_⟩
        intro e1 he1
        simp only [Option.some.injEq] at he1
        subst he1
        decide
      · obtain ⟨-, -, -, -, -, rfl, rfl⟩ := h
        exact ⟨rfl, fun e1 he1 => by simp at he1⟩)).1

/-- C8 at a concrete input: the task reserved from tier 2 has a lease. -/
theorem Reserve_records_lease_witness :
    ∃ a, (Reserve cannedQueues idCodec (emptyMQ 60) threeTiers).mq.msgAssoc "t2" = some a :=
  (Reserve_records_lease cannedQueues idCodec (emptyMQ 60) threeTiers ⟨"t2", some 1, 0, ""⟩
    (by decide)).elim fun _ h1 => h1.elim fun _ h2 => h2.elim fun m h3 => h3.elim fun _ h4 =>
      h4.elim fun _ h5 => ⟨⟨m.Id, m.ReservationId⟩, h5.2.2.1⟩

/-! ## The lease registry -/

/-- The lease table after `Delete`: the entry of the task's id is removed when the
task passes validation, and nothing changes otherwise. -/
theorem Delete_msgAssoc {β : Type} (q : Queues β) (mq : IronMQ) (b : β) (job : Option Task) :
    (Delete q mq b job).mq.msgAssoc =
      match job with
      | some j => if validate (some j) = none then mapDelete mq.msgAssoc j.ID else mq.msgAssoc
      | none => mq.msgAssoc := by
  rcases job with _ | j
  · rfl
  · rcases hv : validate (some j) with _ | err
    · obtain ⟨i, hp, hi⟩ := (validate_eq_none j).1 hv
      rcases hl : mq.msgAssoc j.ID with _ | a
      · rw [Delete_of_no_lease q mq b j hv hl]
        simp [hv]
      · rw [Delete_of_lease q mq b j a i hp hi hl]
        simp [hv]
    · unfold Delete
      simp [hv]

/-- The broker is not changed by `Push`. -/
theorem Push_mq {β : Type} (q : Queues β) (c : Codec) (mq : IronMQ) (b : β)
    (job : Option Task) : (Push q c mq b job).mq = mq := by
  unfold Push
  rcases validate job with _ | err
  · rcases job with _ | j
    · rfl
    · simp only
      rcases c.Marshal j with e | buf
      · rfl
      · simp only
        rcases j.Priority.bind queueIndex with _ | i <;> rfl
  · rfl

/-- C12. For every valid task that has a lease entry, `Delete` issues exactly one
backend delete: on the queue indexed by the task's priority, with the message id
and the reservation id of the entry. The entry is what the recording `Reserve`
stored: when the entry is the one left by a `Reserve` that returned the task, the
store effect of that `Reserve` stored exactly this pair under the task's id. -/
theorem Delete_one_backend_delete {β : Type} (q : Queues β) (mq : IronMQ) (b : β)
    (job : Task) (a : assoc) (hval : validate (some job) = none)
    (hlease : mq.msgAssoc job.ID = some a) :
    (∃ i : Nat, job.Priority = some (i : Int) ∧ i ≤ 2 ∧
      (Delete q mq b (some job)).effects.filter isDelete =
        [Effect.DeleteMessage i a.msgId a.reservationId
          (q.DeleteMessage i a.msgId a.reservationId b).1] ∧
      (Delete q mq b (some job)).backend = (q.DeleteMessage i a.msgId a.reservationId b).2) ∧
    (∀ (c : Codec) (mq0 : IronMQ) (b0 : β), (Reserve q c mq0 b0).ret.1 = some job →
      (Reserve q c mq0 b0).mq.msgAssoc job.ID = mq.msgAssoc job.ID →
      Effect.mapStore job.ID a ∈ (Reserve q c mq0 b0).effects) := by
  constructor
  · obtain ⟨i, hp, hi⟩ := (validate_eq_none job).1 hval
    refine ⟨i, hp, hi, ?_⟩
    rw [Delete_of_lease q mq b job a i hp hi hlease]
    exact ⟨by simp [isDelete], rfl⟩
  · intro c mq0 b0 hret hsame
    obtain ⟨pre, i, m, rest, e, b1, hb, hu, hR⟩ := Reserve_lease q c mq0 b0 job hret
    rw [hR] at hsame ⊢
    have ha : a = ⟨m.Id, m.ReservationId⟩ := by
      have h1 : mapStore mq0.msgAssoc job.ID ⟨m.Id, m.ReservationId⟩ job.ID = some a := by
        rw [← hlease]
        exact hsame
      rw [mapStore_self] at h1
      exact (Option.some.inj h1).symm
    simp [ha]

/-- C12 at a concrete input: the task reserved from tier 2 of three full tiers
is deleted with the handles of the tier-2 message, on the queue of its priority. -/
theorem Delete_one_backend_delete_witness :
    ∃ i : Nat, (some 1 : Option Int) = some (i : Int) ∧ i ≤ 2 ∧
      (Delete cannedQueues (Reserve cannedQueues idCodec (emptyMQ 60) threeTiers).mq threeTiers
        (some ⟨"t2", some 1, 0, ""⟩)).effects.filter isDelete =
        [Effect.DeleteMessage i "m2" "r2" (cannedQueues.DeleteMessage i "m2" "r2" threeTiers).1] :=
  have h := (Delete_one_backend_delete cannedQueues
    (Reserve cannedQueues idCodec (emptyMQ 60) threeTiers).mq threeTiers ⟨"t2", some 1, 0, ""⟩
    ⟨"m2", "r2"⟩ (by decide) (by decide)).1
  h.elim fun i hi => ⟨i, hi.1, hi.2.1, hi.2.2.1⟩

/-- C13. Lease entries are created only by a successful `Reserve`: `Push` leaves
the lease table as it was; `Delete` gives no id an entry that had none; a
`Reserve` that returns no task (with or without an error) leaves the table as
it was. And a `Delete` that passes validation leaves no entry for the task's
id, whatever the backend delete answers, and every other entry unchanged. -/
theorem lease_created_only_by_Reserve {β : Type} (q : Queues β) (c : Codec) (mq : IronMQ)
    (b : β) (job : Option Task) :
    (Push q c mq b job).mq.msgAssoc = mq.msgAssoc ∧
    (∀ id, mq.msgAssoc id = none → (Delete q mq b job).mq.msgAssoc id = none) ∧
    ((Reserve q c mq b).ret.1 = none → (Reserve q c mq b).mq.msgAssoc = mq.msgAssoc) ∧
    (∀ j, job = some j → validate (some j) = none →
      (Delete q mq b job).mq.msgAssoc j.ID = none ∧
      ∀ id, id ≠ j.ID → (Delete q mq b job).mq.msgAssoc id = mq.msgAssoc id) := by
  refine ⟨by rw [Push_mq], ?_, ?_, ?_⟩
  · intro id hid
    rw [Delete_msgAssoc]
    rcases job with _ | j
    · exact hid
    · by_cases hv : validate (some j) = none
      · simp only [hv, if_true]
        unfold mapDelete
        by_cases hk : id = j.ID <;> simp [hk, hid]
      · simp only [hv, if_false]
        exact hid
  · intro hnone
    obtain ⟨x, b1, evs, _, hR⟩ := Reserve_run q c mq b
    rcases hR with ⟨r, _, hR⟩ | ⟨m, rest, _, hR⟩
    · rw [hR]
    · rcases afterLoop_cases c mq b1 evs m with
        ⟨_, _, hA⟩ | ⟨e, _, _, _, hA⟩ | ⟨job', _, _, _, hA⟩
      · rw [hR, hA]
      · rw [hR, hA]
      · rw [hR, hA] at hnone
        simp at hnone
  · intro j hj hv
    subst hj
    rw [Delete_msgAssoc]
    simp only [hv, if_true]
    refine ⟨mapDelete_self _ _, ?_⟩
    intro id hid
    simp [mapDelete, hid]

/-- C13 at a concrete input: deleting the task `"t1"` whose backend delete is
refused still removes its lease. -/
theorem lease_created_only_by_Reserve_witness :
    (Delete cannedQueues ⟨mapStore (fun _ => none) "t1" ⟨"m1", "r1"⟩, 60⟩
      ⟨fun _ => ([], none), none, some ⟨"500 Internal Server Error"⟩⟩
      (some ⟨"t1", some 1, 0, ""⟩)).mq.msgAssoc "t1" = none :=
  ((lease_created_only_by_Reserve cannedQueues idCodec
    ⟨mapStore (fun _ => none) "t1" ⟨"m1", "r1"⟩, 60⟩
    ⟨fun _ => ([], none), none, some ⟨"500 Internal Server Error"⟩⟩
    (some ⟨"t1", some 1, 0, ""⟩)).2.2.2 ⟨"t1", some 1, 0, ""⟩ rfl (by decide)).1

/-! ## The order of effects in Delete -/

/-- C14, as stated, fails: `Delete` consumes the registry entry under the lock
and calls the backend afterwards. For a valid task with a lease, the removal
from the lease table is effect 0 and the backend delete call is effect 1: the
removal precedes the call. -/
theorem Delete_removal_precedes_call :
    (Delete cannedQueues ⟨mapStore (fun _ => none) "t1" ⟨"m1", "r1"⟩, 60⟩ threeTiers
        (some ⟨"t1", some 1, 0, ""⟩)).effects[0]? = some (Effect.mapDelete "t1") ∧
      (Delete cannedQueues ⟨mapStore (fun _ => none) "t1" ⟨"m1", "r1"⟩, 60⟩ threeTiers
        (some ⟨"t1", some 1, 0, ""⟩)).effects[1]? =
        some (Effect.DeleteMessage 1 "m1" "r1" none) := by
  refine ⟨by decide, by decide⟩

/-- C14, amended. In every execution of `Delete` that issues a backend delete
call, the lease registry entry for the task is consumed (removed) before the
call is issued: the call is effect 1, the last one, and the removal of the
entry of the task's id is effect 0. -/
theorem Delete_consumes_before_call {β : Type} (q : Queues β) (mq : IronMQ) (b : β)
    (job : Option Task) (k i : Nat) (id rid : String) (e : Option BackendError)
    (hcall : (Delete q mq b job).effects[k]? = some (Effect.DeleteMessage i id rid e)) :
    ∃ j, job = some j ∧ k = 1 ∧
      (Delete q mq b job).effects[0]? = some (Effect.mapDelete j.ID) ∧
      (Delete q mq b job).effects.length = 2 := by
  rcases job with _ | j
  · simp [Delete, validate] at hcall
  · rcases hv : validate (some j) with _ | err
    · obtain ⟨p, hp, hp2⟩ := (validate_eq_none j).1 hv
      rcases hl : mq.msgAssoc j.ID with _ | a
      · rw [Delete_of_no_lease q mq b j hv hl] at hcall
        rcases k with _ | k <;> simp at hcall
      · rw [Delete_of_lease q mq b j a p hp hp2 hl] at hcall ⊢
        rcases k with _ | _ | k
        · simp at hcall
        · exact ⟨j, rfl, rfl, rfl, rfl⟩
        · simp at hcall
    · unfold Delete at hcall
      simp [hv] at hcall

/-- C14 (amended) at a concrete input: a valid task with a lease. -/
theorem Delete_consumes_before_call_witness :
    ∃ j : Task, (some ⟨"t1", some 1, 0, ""⟩ : Option Task) = some j ∧ 1 = 1 ∧
      (Delete cannedQueues ⟨mapStore (fun _ => none) "t1" ⟨"m1", "r1"⟩, 60⟩ threeTiers
        (some ⟨"t1", some 1, 0, ""⟩)).effects[0]? = some (Effect.mapDelete j.ID) ∧
      (Delete cannedQueues ⟨mapStore (fun _ => none) "t1" ⟨"m1", "r1"⟩, 60⟩ threeTiers
        (some ⟨"t1", some 1, 0, ""⟩)).effects.length = 2 :=
  Delete_consumes_before_call cannedQueues ⟨mapStore (fun _ => none) "t1" ⟨"m1", "r1"⟩, 60⟩
    threeTiers (some ⟨"t1", some 1, 0, ""⟩) 1 1 "m1" "r1" none (by decide)

/-! ## The arguments of the polls -/

/-- Every poll recorded in the effects of `Reserve` was issued by the loop with
the arguments `1, mq.reserveTimeout, 0, false`. -/
theorem Reserve_poll_args {β : Type} (q : Queues β) (c : Codec) (mq : IronMQ) (b : β)
    (i : Nat) (n t w : Int) (d : Bool) (ms : List Message) (e : Option BackendError)
    (h : Effect.LongPoll i n t w d ms e ∈ (Reserve q c mq b).effects) :
    n = 1 ∧ t = mq.reserveTimeout ∧ w = 0 ∧ d = false := by
  rcases Reserve_cases q c mq b with
    ⟨ms', e', b2, h2, hq2, hR⟩ | ⟨m, rest, e', b2, h2, ha, hR⟩ |
    ⟨e2, b2, ms', e', b1, h2, ha2, h1, hq1, hR⟩ | ⟨e2, b2, m, rest, e', b1, h2, ha2, h1, ha, hR⟩ |
    ⟨e2, b2, e1, b1, ms', e', b0, h2, ha2, h1, ha1, h0, hq0, hR⟩ |
    ⟨e2, b2, e1, b1, m, rest, e', b0, h2, ha2, h1, ha1, h0, ha, hR⟩ |
    ⟨e2, b2, e1, b1, e0, b0, h2, ha2, h1, ha1, h0, ha0, hR⟩ <;>
  rw [hR] at h <;>
  simp only [mem_afterLoop_poll, List.mem_cons, List.mem_singleton, List.not_mem_nil, or_false,
    Effect.LongPoll.injEq] at h
  · obtain ⟨-, rfl, rfl, rfl, rfl, -⟩ := h
    exact ⟨rfl, rfl, rfl, rfl⟩
  · obtain ⟨-, rfl, rfl, rfl, rfl, -⟩ := h
    exact ⟨rfl, rfl, rfl, rfl⟩
  · rcases h with h | h <;> obtain ⟨-, rfl, rfl, rfl, rfl, -⟩ := h <;> exact ⟨rfl, rfl, rfl, rfl⟩
  · rcases h with h | h <;> obtain ⟨-, rfl, rfl, rfl, rfl, -⟩ := h <;> exact ⟨rfl, rfl, rfl, rfl⟩
  · rcases h with h | h | h <;> obtain ⟨-, rfl, rfl, rfl, rfl, -⟩ := h <;>
      exact ⟨rfl, rfl, rfl, rfl⟩
  · rcases h with h | h | h <;> obtain ⟨-, rfl, rfl, rfl, rfl, -⟩ := h <;>
      exact ⟨rfl, rfl, rfl, rfl⟩
  · rcases h with h | h | h <;> obtain ⟨-, rfl, rfl, rfl, rfl, -⟩ := h <;>
      exact ⟨rfl, rfl, rfl, rfl⟩

/-- C15, as stated, fails: the polls of `Reserve` do not wait. A broker
constructed for a duration of 60 seconds has the reserve timeout 60, and the
poll it issues passes 60 as the `timeout` argument of `LongPoll` (how long the
message stays reserved) and the constant 0 as its `wait` argument. -/
theorem Reserve_poll_wait_is_zero :
    (NewIronMQ (60 * Second) none).1.map (fun mq => mq.reserveTimeout) = some 60 ∧
      (Reserve cannedQueues idCodec ⟨fun _ => none, 60⟩ threeTiers).effects[0]? =
        some (Effect.LongPoll 2 1 60 0 false [⟨"m2", "t2", 0, "r2"⟩] none) ∧
      (0 : Int) ≠ 60 := by
  refine ⟨by decide, by decide, by decide⟩

/-- C15, amended. Every poll that `Reserve` issues requests one message,
disables auto-delete, passes 0 as the wait and passes the configured reserve
timeout as the `timeout` argument. The reserve timeout of a broker constructed
by `NewIronMQ` is the constructor's duration divided by one second, truncated
towards zero: for a duration that is not negative it is the number of whole
seconds in it. -/
theorem Reserve_poll_arguments {β : Type} (q : Queues β) (c : Codec) (mq : IronMQ) (b : β)
    (i : Nat) (n t w : Int) (d : Bool) (ms : List Message) (e : Option BackendError)
    (h : Effect.LongPoll i n t w d ms e ∈ (Reserve q c mq b).effects) :
    (n = 1 ∧ d = false ∧ w = 0 ∧ t = mq.reserveTimeout) ∧
    (∀ (dur : Int) (mq1 : IronMQ), (NewIronMQ dur none).1 = some mq1 →
      mq1.reserveTimeout = Int.tdiv dur 1000000000 ∧
      (0 ≤ dur → mq1.reserveTimeout * 1000000000 ≤ dur ∧
        dur < (mq1.reserveTimeout + 1) * 1000000000)) := by
  obtain ⟨hn, ht, hw, hd⟩ := Reserve_poll_args q c mq b i n t w d ms e h
  refine ⟨⟨hn, hd, hw, ht⟩, ?_⟩
  intro dur mq1 hmq
  simp only [NewIronMQ, Option.some.injEq] at hmq
  subst hmq
  refine ⟨rfl, ?_⟩
  intro hdur
  simp only [Second]
  rw [Int.tdiv_eq_ediv hdur (by norm_num)]
  constructor
  · exact Int.ediv_mul_le dur (by norm_num)
  · exact Int.lt_ediv_add_one_mul_self dur (by norm_num)

/-- C15 (amended) at a concrete input: the poll of tier 2 of three full tiers. -/
theorem Reserve_poll_arguments_witness :
    (1 : Int) = 1 ∧ false = false ∧ (0 : Int) = 0 ∧ (60 : Int) = (emptyMQ 60).reserveTimeout :=
  (Reserve_poll_arguments cannedQueues idCodec (emptyMQ 60) threeTiers 2 1 60 0 false
    [⟨"m2", "t2", 0, "r2"⟩] none (by decide)).1

/-! ## Round trip through the in-memory backend -/

/-- C11. Round trip. For every valid task `t` with zero delay whose
serialization `buf` decodes to a task with the id and the payload of `t` (a
JSON text, hence not the empty string), on a broker whose in-memory queues are
all empty: `Push` of `t` succeeds, and the `Reserve` that follows returns a task
with the same id and payload as `t`. -/
theorem Push_then_Reserve (c : Codec) (mq : IronMQ) (b : MemState) (t t1 : Task)
    (buf : String) (hval : validate (some t) = none) (hdelay : t.Delay = 0)
    (hempty : ∀ i, b.waiting i = [])
    (hbuf : c.Marshal t = .ok buf) (hne : buf ≠ "") (hdec : c.Unmarshal buf = .ok t1)
    (hid : t1.ID = t.ID) (hpl : t1.Payload = t.Payload) :
    (Push memQueues c mq b (some t)).ret = (some t, none) ∧
    ∃ r, (Reserve memQueues c (Push memQueues c mq b (some t)).mq
        (Push memQueues c mq b (some t)).backend).ret = (some r, none) ∧
      r.ID = t.ID ∧ r.Payload = t.Payload := by
  obtain ⟨i, hp, hi⟩ := (validate_eq_none t).1 hval
  have hP : Push memQueues c mq b (some t) =
      ⟨(some t, none), mq,
        (memQueues.PushMessage i ⟨"", buf, t.Delay, ""⟩ b).2,
        [Effect.PushMessage i ⟨"", buf, t.Delay, ""⟩ none], false⟩ := by
    unfold Push
    simp only [hval, hbuf, hp, Option.bind, queueIndex_natCast i hi]
    rfl
  rw [hP]
  refine ⟨rfl, t1, ?_, hid, hpl⟩
  have hi3 : i = 0 ∨ i = 1 ∨ i = 2 := by omega
  rcases hi3 with rfl | rfl | rfl <;>
    simp [Reserve, pollTiers, pollAborts, afterLoop, memQueues, takeVisible, hempty, hdelay,
      hne, hdec]

/-- C11 at a concrete input: a task of priority 1 pushed to the empty in-memory
service and reserved again. -/
theorem Push_then_Reserve_witness :
    ∃ r, (Reserve memQueues idCodec (Push memQueues idCodec (emptyMQ 60) emptyMem
          (some ⟨"t5", some 1, 0, ""⟩)).mq
        (Push memQueues idCodec (emptyMQ 60) emptyMem (some ⟨"t5", some 1, 0, ""⟩)).backend).ret =
        (some r, none) ∧ r.ID = "t5" ∧ r.Payload = "" :=
  (Push_then_Reserve idCodec (emptyMQ 60) emptyMem ⟨"t5", some 1, 0, ""⟩ ⟨"t5", some 1, 0, ""⟩
    "t5" (by decide) rfl (fun _ => rfl) rfl (by decide) (by simp [idCodec, foreignText])
    rfl rfl).2

end Mqs

namespace Datastoreutil

/-! ## SplitPath -/

theorem splitSlash_ne_nil (s : List Char) : splitSlash s ≠ [] := by
  induction s with
  | nil => simp [splitSlash]
  | cons c cs ih =>
    unfold splitSlash
    by_cases hc : c = '/'
    · simp [hc]
    · rcases h : splitSlash cs with _ | ⟨p, ps⟩ <;> simp [hc]

theorem splitSlash_no_slash (s : List Char) : ∀ p ∈ splitSlash s, '/' ∉ p := by
  induction s with
  | nil => simp [splitSlash]
  | cons c cs ih =>
    unfold splitSlash
    by_cases hc : c = '/'
    · simp only [hc, if_true, List.mem_cons]
      rintro p (rfl | hp)
      · simp
      · exact ih p hp
    · rcases h : splitSlash cs with _ | ⟨p, ps⟩
      · exact absurd h (splitSlash_ne_nil cs)
      · rw [h] at ih
        simp only [hc, if_false, List.mem_cons]
        rintro p' (rfl | hp)
        · have := ih p (by simp)
          simp only [List.mem_cons, not_or]
          exact ⟨fun hh => hc hh.symm, this⟩
        · exact ih p' (by simp [hp])

theorem intercalate_cons_cons (sep a b : List Char) (l : List (List Char)) :
    List.intercalate sep (a :: b :: l) = a ++ sep ++ List.intercalate sep (b :: l) := by
  simp [List.intercalate, List.intersperse]

theorem intercalate_cons_head (sep p : List Char) (c : Char) (ps : List (List Char)) :
    List.intercalate sep ((c :: p) :: ps) = c :: List.intercalate sep (p :: ps) := by
  rcases ps with _ | ⟨q, qs⟩
  · simp [List.intercalate, List.intersperse]
  · rw [intercalate_cons_cons, intercalate_cons_cons]
    simp

theorem intercalate_splitSlash (s : List Char) :
    List.intercalate ['/'] (splitSlash s) = s := by
  induction s with
  | nil => simp [splitSlash, List.intercalate, List.intersperse]
  | cons c cs ih =>
    unfold splitSlash
    rcases h : splitSlash cs with _ | ⟨p, ps⟩
    · exact absurd h (splitSlash_ne_nil cs)
    · rw [h] at ih
      by_cases hc : c = '/'
      · simp only [hc, if_true]
        rw [intercalate_cons_cons, ih]
        rfl
      · simp only [hc, if_false]
        rw [intercalate_cons_head, ih]

/-- The parts of `SplitPath` are the split of the stripped path, and none when
the stripped path is empty. -/
theorem SplitPath_fst (path : List Char) :
    (SplitPath path).1 =
      if stripSlashes path = [] then [] else splitSlash (stripSlashes path) := by
  have h1 : (if 0 < path.length ∧ path.head? = some '/' then path.drop 1 else path) =
      (if path.head? = some '/' then path.drop 1 else path) := by
    rcases path with _ | ⟨c, cs⟩ <;> simp
  unfold SplitPath stripSlashes
  simp only [h1]
  generalize (if path.head? = some '/' then path.drop 1 else path) = p
  by_cases hl : p.getLast? = some '/'
  · have hpos : 0 < p.length := by
      rcases p with _ | ⟨c, cs⟩
      · simp at hl
      · simp
    simp only [hl, hpos, and_self, decide_True, if_true, ← List.dropLast_eq_take]
    by_cases hd : p.dropLast = []
    · simp [hd]
    · rw [if_pos (List.length_pos.2 hd), if_neg hd]
  · simp only [hl, and_false, decide_False, Bool.false_eq_true, if_false]
    by_cases hd : p = []
    · simp [hd]
    · rw [if_pos (List.length_pos.2 hd), if_neg hd]

/-- C16, as stated, fails: the path `/` ends with `/`, and `SplitPath` reports no
trailing slash for it, because its only `/` is removed as the leading one
before the end of the path is looked at. -/
theorem SplitPath_root_no_trailingSlash :
    ("/".toList).getLast? = some '/' ∧ SplitPath "/".toList = ([], false) := by
  refine ⟨by decide, by decide⟩

/-- C16, amended. For every path, the `trailingSlash` result of `SplitPath` is
true exactly when the path ends with `/` and is not the one-character path `/`
(equivalently: when the path still ends with `/` after one leading `/` has been
removed). -/
theorem SplitPath_trailingSlash (path : List Char) :
    ((SplitPath path).2 = true ↔ path.getLast? = some '/' ∧ path ≠ ['/']) ∧
    ((SplitPath path).2 = true ↔
      (if path.head? = some '/' then path.drop 1 else path).getLast? = some '/') := by
  rcases path with _ | ⟨c, cs⟩
  · simp [SplitPath]
  · by_cases hc : c = '/'
    · subst hc
      rcases cs with _ | ⟨d, ds⟩
      · simp [SplitPath]
      · simp [SplitPath, List.getLast?_cons_cons]
    · constructor
      · simp only [SplitPath, List.head?_cons, Option.some.injEq, hc, and_false, if_false,
          List.length_cons, Nat.zero_lt_succ, true_and, decide_eq_true_eq]
        constructor
        · intro h
          refine ⟨h, ?_⟩
          intro hh
          simp only [List.cons.injEq] at hh
          exact hc hh.1
        · exact fun h => h.1
      · simp [SplitPath, hc]

/-- C16 (amended) at a concrete input: the path `/a/`. -/
theorem SplitPath_trailingSlash_witness : (SplitPath "/a/".toList).2 = true :=
  (SplitPath_trailingSlash "/a/".toList).1.2 ⟨by decide, by decide⟩

/-! ## The parts of SplitPath -/

/-- C19. For every path, the parts returned by `SplitPath` are the split on `/`
of the path with one leading `/` and one trailing `/` removed: no part contains
`/`, joining the parts with `/` gives back exactly that stripped path, parts is
empty exactly when the stripped path is empty, and otherwise parts is the
result of `strings.Split` on the stripped path. -/
theorem SplitPath_parts (path : List Char) :
    (∀ p ∈ (SplitPath path).1, '/' ∉ p) ∧
    List.intercalate ['/'] (SplitPath path).1 = stripSlashes path ∧
    ((SplitPath path).1 = [] ↔ stripSlashes path = []) ∧
    (stripSlashes path ≠ [] → (SplitPath path).1 = splitSlash (stripSlashes path)) := by
  rw [SplitPath_fst]
  by_cases hs : stripSlashes path = []
  · simp [hs, List.intercalate]
  · simp only [hs, if_false]
    refine ⟨splitSlash_no_slash _, intercalate_splitSlash _, ?_, fun _ => trivial⟩
    simp [splitSlash_ne_nil]

/-- C19 at a concrete input: the path `/a//b/`. -/
theorem SplitPath_parts_witness :
    (SplitPath "/a//b/".toList).1 = splitSlash (stripSlashes "/a//b/".toList) ∧
      (SplitPath "/a//b/".toList).1 = ["a".toList, [], "b".toList] :=
  ⟨(SplitPath_parts "/a//b/".toList).2.2.2 (by decide), by decide⟩

/-! ## StripParamNames -/

theorem indexWhere_ge (p : Char → Bool) (s : List Char) : -1 ≤ indexWhere p s := by
  induction s with
  | nil => simp [indexWhere]
  | cons c cs ih =>
    unfold indexWhere
    split_ifs <;> omega

theorem indexWhere_neg (p : Char → Bool) (s : List Char) (h : indexWhere p s < 0) :
    ∀ c ∈ s, p c = false := by
  induction s with
  | nil => simp
  | cons c cs ih =>
    unfold indexWhere at h
    by_cases hc : p c = true
    · simp [hc] at h
    · simp only [hc, if_false] at h
      have hlt : indexWhere p cs < 0 := by
        by_contra hn
        rw [if_neg hn] at h
        have := indexWhere_ge p cs
        omega
      intro d hd
      rcases List.mem_cons.1 hd with rfl | hd
      · simpa using hc
      · exact ih hlt d hd

theorem indexWhere_cons_pos (p : Char → Bool) (c : Char) (cs : List Char) (hc : p c = true) :
    indexWhere p (c :: cs) = 0 := by
  simp [indexWhere, hc]

theorem indexWhere_cons_neg (p : Char → Bool) (c : Char) (cs : List Char) (hc : ¬ p c = true)
    (hn : ¬ indexWhere p cs < 0) : indexWhere p (c :: cs) = indexWhere p cs + 1 := by
  simp [indexWhere, hc, hn]

theorem indexWhere_split (p : Char → Bool) (s : List Char) (h : 0 ≤ indexWhere p s) :
    ∃ pre x post, s = pre ++ x :: post ∧ (indexWhere p s).toNat = pre.length ∧ p x = true ∧
      ∀ c ∈ pre, p c = false := by
  induction s with
  | nil => simp [indexWhere] at h
  | cons c cs ih =>
    by_cases hc : p c = true
    · exact ⟨[], c, cs, rfl, by simp [indexWhere_cons_pos p c cs hc], hc, by simp⟩
    · by_cases hn : indexWhere p cs < 0
      · have : indexWhere p (c :: cs) = -1 := by simp [indexWhere, hc, hn]
        omega
      · obtain ⟨pre, x, post, hs, hlen, hx, hpre⟩ := ih (by omega)
        refine ⟨c :: pre, x, post, by rw [hs]; rfl, ?_, hx, ?_⟩
        · rw [indexWhere_cons_neg p c cs hc hn]
          simp only [List.length_cons]
          omega
        · intro d hd
          rcases List.mem_cons.1 hd with rfl | hd
          · simpa using hc
          · exact hpre d hd

theorem stripNames_false_cons (c : Char) (cs : List Char) :
    stripNames false (c :: cs) =
      if c = ':' ∨ c = '*' then c :: stripNames true cs else c :: stripNames false cs := by
  simp [stripNames]

theorem stripNames_true_cons (c : Char) (cs : List Char) :
    stripNames true (c :: cs) =
      if c = '/' then c :: stripNames false cs else stripNames true cs := by
  simp [stripNames]

theorem stripNames_false_of_none (s : List Char)
    (h : ∀ c ∈ s, decide (c = ':' ∨ c = '*') = false) : stripNames false s = s := by
  induction s with
  | nil => rfl
  | cons c cs ih =>
    have hc : ¬ (c = ':' ∨ c = '*') := by simpa using h c (by simp)
    rw [stripNames_false_cons, if_neg hc, ih (fun d hd => h d (by simp [hd]))]

theorem stripNames_false_split (pre post : List Char) (x : Char)
    (hpre : ∀ c ∈ pre, decide (c = ':' ∨ c = '*') = false)
    (hx : decide (x = ':' ∨ x = '*') = true) :
    stripNames false (pre ++ x :: post) = pre ++ x :: stripNames true post := by
  induction pre with
  | nil =>
    have hx1 : x = ':' ∨ x = '*' := by simpa using hx
    rw [List.nil_append, stripNames_false_cons, if_pos hx1, List.nil_append]
  | cons c cs ih =>
    have hc : ¬ (c = ':' ∨ c = '*') := by simpa using hpre c (by simp)
    rw [List.cons_append, stripNames_false_cons, if_neg hc,
      ih (fun d hd => hpre d (by simp [hd])), List.cons_append]

theorem stripNames_true_of_none (s : List Char) (h : ∀ c ∈ s, decide (c = '/') = false) :
    stripNames true s = [] := by
  induction s with
  | nil => rfl
  | cons c cs ih =>
    have hc : ¬ c = '/' := by simpa using h c (by simp)
    rw [stripNames_true_cons, if_neg hc, ih (fun d hd => h d (by simp [hd]))]

theorem stripNames_true_split (pre post : List Char)
    (hpre : ∀ c ∈ pre, decide (c = '/') = false) :
    stripNames true (pre ++ '/' :: post) = stripNames false ('/' :: post) := by
  induction pre with
  | nil =>
    rw [List.nil_append, stripNames_true_cons, stripNames_false_cons]
    simp
  | cons c cs ih =>
    have hc : ¬ c = '/' := by simpa using hpre c (by simp)
    rw [List.cons_append, stripNames_true_cons, if_neg hc,
      ih (fun d hd => hpre d (by simp [hd]))]

/-- At the head of the loop, an index that is not negative only says where the
rest of the route starts. -/
theorem stripLoop_head (fuel : Nat) (i : Int) (route b : List Char) (hi : 0 ≤ i) :
    stripLoop (fuel + 1) i route b = stripLoop (fuel + 1) 0 (route.drop i.toNat) b := by
  have h1 : ¬ i < 0 := by omega
  simp [stripLoop, h1]

/-- With more iterations allowed than the route has characters, the loop ends
and has written what the comment of `StripParamNames` describes. -/
theorem stripLoop_eq (fuel : Nat) : ∀ (route b : List Char), route.length < fuel →
    stripLoop fuel 0 route b = some (b ++ stripNames false route) := by
  induction fuel with
  | zero => intro route b h; omega
  | succ fuel ih =>
    intro route b hlen
    unfold stripLoop
    simp only [lt_self_iff_false, if_false, Int.toNat_zero, List.drop_zero]
    by_cases hj : IndexAny route < 0
    · rw [if_pos hj, stripNames_false_of_none route (indexWhere_neg _ route hj)]
    · rw [if_neg hj]
      obtain ⟨pre, x, post, hs, hlen1, hx, hpre⟩ :=
        indexWhere_split (fun c => decide (c = ':' ∨ c = '*')) route (by
          unfold IndexAny at hj; omega)
      have hj1 : (IndexAny route).toNat = pre.length := hlen1
      rw [hj1]
      subst hs
      have hdrop : (pre ++ x :: post).drop (pre.length + 1) = post := by simp
      have htake : (pre ++ x :: post).take (pre.length + 1) = pre ++ [x] := by
        simp [List.take_append_eq_append_take]
      rw [hdrop, htake, stripNames_false_split pre post x hpre hx]
      have hpost : post.length < fuel := by
        simp only [List.length_append, List.length_cons] at hlen
        omega
      obtain ⟨f, rfl⟩ : ∃ f, fuel = f + 1 := ⟨fuel - 1, by omega⟩
      by_cases hi : IndexRune post < 0
      · have hnone := stripNames_true_of_none post (indexWhere_neg _ post hi)
        rw [hnone]
        simp [stripLoop, hi]
      · have hi0 : 0 ≤ IndexRune post := by omega
        obtain ⟨pre1, y, post1, hs1, hlen2, hy, hpre1⟩ :=
          indexWhere_split (fun c => decide (c = '/')) post hi0
        have hy1 : y = '/' := by simpa using hy
        subst hy1
        rw [stripLoop_head f _ post _ hi0]
        have hi1 : (IndexRune post).toNat = pre1.length := hlen2
        rw [hi1]
        subst hs1
        have hdrop1 : (pre1 ++ '/' :: post1).drop pre1.length = '/' :: post1 := by simp
        rw [hdrop1, ih ('/' :: post1) _ (by
          simp only [List.length_append, List.length_cons] at hpost ⊢
          omega)]
        rw [stripNames_true_split pre1 post1 hpre1]
        simp

theorem StripParamNames_eq (route : List Char) :
    StripParamNames route = some (stripNames false route) := by
  unfold StripParamNames
  rw [stripLoop_eq (route.length + 1) route [] (by omega)]
  simp

/-- C17. For every route, `StripParamNames` returns the route with every
parameter name removed and everything else kept: each `:` or `*` that starts a
parameter is kept, and the characters after it up to (not including) the next
`/`, or up to the end of the route, are dropped. The loop terminates for every
route: it ends within any number of iterations greater than the length of the
route. A route with no `:` or `*` is returned unchanged, and
`/blogs/:blog_id/comments/:comment_id` maps to `/blogs/:/comments/:`. -/
theorem StripParamNames_spec (route : List Char) :
    StripParamNames route = some (stripNames false route) ∧
    (∀ fuel, route.length < fuel →
      stripLoop fuel 0 route [] = some (stripNames false route)) ∧
    ((∀ c ∈ route, c ≠ ':' ∧ c ≠ '*') → StripParamNames route = some route) ∧
    StripParamNames "/blogs/:blog_id/comments/:comment_id".toList =
      some "/blogs/:/comments/:".toList := by
  refine ⟨StripParamNames_eq route, ?_, ?_, by decide⟩
  · intro fuel hfuel
    rw [stripLoop_eq fuel route [] hfuel]
    simp
  · intro h
    rw [StripParamNames_eq, stripNames_false_of_none route]
    intro c hc
    have := h c hc
    simp [this.1, this.2]

/-- C17 at a concrete input: a route without parameters. -/
theorem StripParamNames_spec_witness :
    StripParamNames "/blogs".toList = some "/blogs".toList :=
  (StripParamNames_spec "/blogs".toList).2.2.1 (by decide)

/-! ## Idempotence of StripParamNames -/

theorem stripNames_idem (r : List Char) :
    stripNames false (stripNames false r) = stripNames false r ∧
    stripNames true (stripNames true r) = stripNames true r := by
  induction r with
  | nil => exact ⟨rfl, rfl⟩
  | cons c cs ih =>
    constructor
    · rw [stripNames_false_cons]
      by_cases hc : c = ':' ∨ c = '*'
      · rw [if_pos hc, stripNames_false_cons, if_pos hc, ih.2]
      · rw [if_neg hc, stripNames_false_cons, if_neg hc, ih.1]
    · rw [stripNames_true_cons]
      by_cases hc : c = '/'
      · rw [if_pos hc, stripNames_true_cons, if_pos hc, ih.1]
      · rw [if_neg hc, ih.2]

/-- In a list of characters, every `:` or `*` is followed by `/` or is last. -/
theorem settled_cons (c : Char) (X : List Char)
    (hX : ∀ pre x post, X = pre ++ x :: post → (x = ':' ∨ x = '*') →
      post = [] ∨ post.head? = some '/')
    (hc : (c = ':' ∨ c = '*') → X = [] ∨ X.head? = some '/') :
    ∀ pre x post, c :: X = pre ++ x :: post → (x = ':' ∨ x = '*') →
      post = [] ∨ post.head? = some '/' := by
  intro pre x post hsplit hx
  rcases pre with _ | ⟨d, pre1⟩
  · simp only [List.nil_append, List.cons.injEq] at hsplit
    obtain ⟨rfl, rfl⟩ := hsplit
    exact hc hx
  · simp only [List.cons_append, List.cons.injEq] at hsplit
    exact hX pre1 x post hsplit.2 hx

theorem stripNames_settled (r : List Char) :
    (∀ pre x post, stripNames false r = pre ++ x :: post → (x = ':' ∨ x = '*') →
      post = [] ∨ post.head? = some '/') ∧
    (∀ pre x post, stripNames true r = pre ++ x :: post → (x = ':' ∨ x = '*') →
      post = [] ∨ post.head? = some '/') ∧
    (stripNames true r = [] ∨ (stripNames true r).head? = some '/') := by
  induction r with
  | nil =>
    refine ⟨?_, ?_, Or.inl rfl⟩ <;>
    · intro pre x post h
      simp [stripNames] at h
  | cons c cs ih =>
    obtain ⟨ihF, ihT, ihH⟩ := ih
    refine ⟨?_, ?_, ?_⟩
    · rw [stripNames_false_cons]
      by_cases hc : c = ':' ∨ c = '*'
      · rw [if_pos hc]
        exact settled_cons c _ ihT (fun _ => ihH)
      · rw [if_neg hc]
        exact settled_cons c _ ihF (fun h => absurd h hc)
    · rw [stripNames_true_cons]
      by_cases hc : c = '/'
      · rw [if_pos hc]
        subst hc
        exact settled_cons '/' _ ihF (fun h => absurd h (by decide))
      · rw [if_neg hc]
        exact ihT
    · rw [stripNames_true_cons]
      by_cases hc : c = '/'
      · rw [if_pos hc]
        exact Or.inr (by simp [hc])
      · rw [if_neg hc]
        exact ihH

/-- C20. The function `StripParamNames` is idempotent: for every route `r` it
returns a result, and applied to that result it returns the same result
again; in the result every `:` or `*` is immediately followed by `/` or is the
last character. -/
theorem StripParamNames_idempotent (r : List Char) :
    ∃ out, StripParamNames r = some out ∧ StripParamNames out = some out ∧
      ∀ pre x post, out = pre ++ x :: post → (x = ':' ∨ x = '*') →
        post = [] ∨ post.head? = some '/' := by
  refine ⟨stripNames false r, StripParamNames_eq r, ?_, (stripNames_settled r).1⟩
  rw [StripParamNames_eq, (stripNames_idem r).1]

/-- C20 at a concrete input: the route `/a/:id/*rest`. -/
theorem StripParamNames_idempotent_witness :
    ∃ out, StripParamNames "/a/:id/*rest".toList = some out ∧ StripParamNames out = some out :=
  (StripParamNames_idempotent "/a/:id/*rest".toList).imp fun _ h => ⟨h.1, h.2.1⟩

/-! ## SqlLikeToRegExp -/

/-- C18 fails on the code. `SqlLikeToRegExp` rewrites only `%`: the `LIKE`
wildcard `_` is left as a literal, and characters that are operators of the
regular expression are not escaped. The pattern `a_c` matches `abc` under
`LIKE`, and the expression `^a_c$` computed for it does not; the pattern `a.c`
does not match `abc` under `LIKE`, and the expression `^a.c$` computed for it
does. The filter `Tes%` of the test does match `Test` both ways. -/
theorem SqlLikeToRegExp_not_equivalent :
    (SqlLikeToRegExp "a_c".toList = "^a_c$".toList ∧
      likeMatch "a_c".toList "abc".toList = true ∧
      regexMatch (SqlLikeToRegExp "a_c".toList) "abc".toList = false) ∧
    (SqlLikeToRegExp "a.c".toList = "^a.c$".toList ∧
      likeMatch "a.c".toList "abc".toList = false ∧
      regexMatch (SqlLikeToRegExp "a.c".toList) "abc".toList = true) ∧
    (SqlLikeToRegExp "Tes%".toList = "^Tes.*?$".toList ∧
      likeMatch "Tes%".toList "Test".toList = true ∧
      regexMatch (SqlLikeToRegExp "Tes%".toList) "Test".toList = true) := by
  refine ⟨⟨by decide, by decide, by decide⟩, ⟨by decide, by decide, by decide⟩,
    ⟨by decide, by decide, by decide⟩⟩

end Datastoreutil
